import Mathlib

/-!
# A shallow embedding of the `gram` diagram renderer

This file embeds the layout and rendering core of the `gram` repository
(sequence diagrams, Gantt charts, directed-graph rank assignment) as Lean
definitions and proves properties of the embedded code.

Modelling conventions:
* Rust `usize` values are modelled as `Nat`.  A subtraction that can
  underflow in the source (an arithmetic overflow, which panics in a debug
  build) is modelled with `csub`, which returns `none` on underflow; code
  paths where underflow is provably unreachable use plain `Nat` subtraction.
* A Rust `panic!` (canvas bounds violation, underflow, zero denominator of
  `Ratio::new`, a failing `unwrap`) is modelled as `Option.none`.
* `chrono::NaiveDate` is modelled as `Int`, a day number; `d2 - d1` then is
  exactly `(d2 - d1).num_days()`.  `NaiveDate::MIN`/`MAX` become two fixed
  `Int` bounds.
* The display width of a string (`UnicodeWidthStr::width`) is modelled as
  `String.length`: every character is assumed to occupy one column, which
  is exact for the ASCII data the claims are about.
* Rust `HashSet`/`HashMap` iteration is modelled by list iteration in the
  order of the underlying node list; `num_rational::Ratio<usize>` is
  modelled by `ℚ` (`Ratio::new` reduces the fraction, so the two agree),
  with `to_integer` as `Rat.floor` (truncation and floor agree on
  non-negative rationals).
-/

/-- Checked `usize` subtraction: Rust `a - b` panics on underflow
(debug-build semantics for arithmetic overflow). -/
def csub (a b : Nat) : Option Nat := if b ≤ a then some (a - b) else none

theorem csub_eq_some {a b : Nat} (h : b ≤ a) : csub a b = some (a - b) := by
  simp [csub, h]

theorem csub_eq_none {a b : Nat} (h : a < b) : csub a b = none := by
  simp [csub]; omega

/-! ## Canvas (`src/renderer.rs` and its duplicate in `src/gantt/renderer.rs`)

The two Rust files define byte-for-byte identical `Canvas` types; we embed
the shared definition once. -/

structure Canvas where
  grid : List (List Char)
  width : Nat
  height : Nat
deriving DecidableEq

namespace Canvas

def new (width height : Nat) : Canvas :=
  { grid := List.replicate height (List.replicate width ' ')
    width := width
    height := height }

/-- `Canvas::set_char`: bounds-checked write; out of bounds panics
(`panic!("Index out of range.")`), modelled as `none`. -/
def set_char (c : Canvas) (x y : Nat) (ch : Char) : Option Canvas :=
  if y < c.height ∧ x < c.width then
    some { c with grid := c.grid.set y ((c.grid.getD y []).set x ch) }
  else
    none

/-- `Canvas::get_char`: bounds-checked read; out of bounds panics. -/
def get_char (c : Canvas) (x y : Nat) : Option Char :=
  if y < c.height ∧ x < c.width then
    some ((c.grid.getD y []).getD x ' ')
  else
    none

def to_string (c : Canvas) : String :=
  String.intercalate "\n" (c.grid.map (fun row => String.mk row))

end Canvas

/-! ## Gantt data model and layout (`src/gantt/parser.rs`, `src/gantt/layout.rs`) -/

namespace Gantt

/-- `gantt::parser::Task`; dates are day numbers (`chrono::NaiveDate`). -/
structure Task where
  start_date : Int
  end_date : Int
  name : String
deriving DecidableEq

structure GanttChart where
  tasks : List Task
deriving DecidableEq

structure TaskLayout where
  x_start : Nat
  x_end : Nat
  y : Nat
  name : String
deriving DecidableEq

structure TickLayout where
  x : Nat
  date : Int
deriving DecidableEq

structure GanttLayout where
  task_layouts : List TaskLayout
  tick_layouts : List TickLayout
  width : Nat
  height : Nat
deriving DecidableEq

def MARGIN_LEFT : Nat := 6
def MARGIN_RIGHT : Nat := 6
def MARGIN_TOP : Nat := 2
def MARGIN_BOTTOM : Nat := 3

def CHART_WIDTH : Nat := 120
def TASK_HEIGHT : Nat := 3
def MIN_TICK_SPACING : Nat := 12

/-- `chrono::NaiveDate::MAX` as a day number (the exact value is irrelevant
to every claim: it only seeds the min/max fold and is replaced as soon as
the chart has one task). -/
def dateMAX : Int := 95026601

/-- `chrono::NaiveDate::MIN` as a day number. -/
def dateMIN : Int := -95746025

/-- `find_date_range`: fold of `min`/`max` over the tasks, seeded with
`NaiveDate::MAX`/`NaiveDate::MIN`. -/
def find_date_range (chart : GanttChart) : Int × Int :=
  chart.tasks.foldl
    (fun acc task => (min acc.1 task.start_date, max acc.2 task.end_date))
    (dateMAX, dateMIN)

/-- `date_to_x`: exact rational days-to-pixels mapping, truncated to an
integer column at the end (`Ratio::to_integer`; floor, as all values are
non-negative).  `(date - min_date).num_days() as usize` is `Int.toNat` of
the difference. -/
def date_to_x (date min_date : Int) (pixels_per_day : ℚ) : Nat :=
  ((((date - min_date).toNat : ℚ) * pixels_per_day).floor).toNat

def layout_tasks_go (min_date : Int) (pixels_per_day : ℚ) :
    List Task → Nat → List TaskLayout
  | [], _ => []
  | task :: rest, y =>
      { x_start := date_to_x task.start_date min_date pixels_per_day + MARGIN_LEFT
        x_end := date_to_x task.end_date min_date pixels_per_day + MARGIN_LEFT
        y := y
        name := task.name } :: layout_tasks_go min_date pixels_per_day rest (y + TASK_HEIGHT)

/-- `layout_tasks`: one bar per task, `y` advancing by `TASK_HEIGHT` from
`MARGIN_TOP`. -/
def layout_tasks (chart : GanttChart) (min_date : Int) (pixels_per_day : ℚ) :
    List TaskLayout :=
  layout_tasks_go min_date pixels_per_day chart.tasks MARGIN_TOP

/-- `layout_ticks`: fixed tick count `(CHART_WIDTH / MIN_TICK_SPACING).max(2)`,
evenly spaced in pixels and days independently. -/
def layout_ticks (min_date : Int) (total_days : Nat) : List TickLayout :=
  let ticks_count := max (CHART_WIDTH / MIN_TICK_SPACING) 2
  let days_per_tick := total_days / (ticks_count - 1)
  let pixels_per_tick := CHART_WIDTH / (ticks_count - 1)
  (List.range ticks_count).map (fun i =>
    { x := i * pixels_per_tick + MARGIN_LEFT
      date := min_date + (days_per_tick * i : Nat) })

/-- `gantt::layout::layout`.  `Ratio::new(CHART_WIDTH, total_days)` panics
when `total_days = 0` (zero denominator), modelled as `none`. -/
def layout (gantt_chart : GanttChart) : Option GanttLayout :=
  let r := find_date_range gantt_chart
  let total_days := (r.2 - r.1).toNat
  if total_days = 0 then none
  else
    let pixels_per_day : ℚ := (CHART_WIDTH : ℚ) / (total_days : ℚ)
    some
      { task_layouts := layout_tasks gantt_chart r.1 pixels_per_day
        tick_layouts := layout_ticks r.1 total_days
        width := CHART_WIDTH + MARGIN_LEFT + MARGIN_RIGHT
        height := TASK_HEIGHT * gantt_chart.tasks.length + MARGIN_TOP + MARGIN_BOTTOM }

/-! ### Gantt renderer (`src/gantt/renderer.rs`) -/

/-- Modelled from the spec: `tick_layout.date.format("%d-%m-%Y")` comes from
`chrono` (outside this repository).  For the dates the charts use it is a
ten-column `dd-mm-yyyy` string; only its width and character count matter to
the renderer, so we model it as the day number zero-padded to ten columns. -/
def format_date (d : Int) : String :=
  let s := toString d
  String.mk (List.replicate (10 - s.length) '0') ++ s

def draw_tick (tick_layout : TickLayout) (canvas : Canvas) : Option Canvas := do
  let canvas ← (List.range' (MARGIN_TOP - 1)
        ((canvas.height - MARGIN_BOTTOM + 1) - (MARGIN_TOP - 1))).foldlM
      (fun c y => c.set_char tick_layout.x y '|') canvas
  let date := format_date tick_layout.date
  let date_start_x ← csub tick_layout.x (date.length / 2)
  (date.toList.enum).foldlM
    (fun c p => c.set_char (date_start_x + p.1) (c.height - MARGIN_BOTTOM + 1) p.2) canvas

def draw_task (task_layout : TaskLayout) (canvas : Canvas) : Option Canvas := do
  let x_start := task_layout.x_start
  let x_end := task_layout.x_end
  let y := task_layout.y
  let name := task_layout.name
  -- `let box_internal_width = x_end - x_start - 1;` (before any drawing):
  -- underflows whenever `x_end ≤ x_start`.
  let t ← csub x_end x_start
  let box_internal_width ← csub t 1
  -- Top border
  let canvas ← canvas.set_char x_start y '┌'
  let canvas ← (List.range' (x_start + 1) (x_end - (x_start + 1))).foldlM
      (fun c x => c.set_char x y '─') canvas
  let canvas ← canvas.set_char x_end y '┐'
  -- Mid line; erase tick columns inside the box
  let canvas ← canvas.set_char x_start (y + 1) '|'
  let canvas ← (List.range' (x_start + 1) (x_end - (x_start + 1))).foldlM
      (fun c x => c.set_char x (y + 1) ' ') canvas
  let name_start_x ← if name.length > box_internal_width then pure (x_end + 1)
    else do
      -- `x_start + (box_internal_width + 1) / 2 - (name.width() - 1) / 2`:
      -- the inner `name.width() - 1` can underflow (empty name); the outer
      -- subtraction cannot, since here `name.width() ≤ box_internal_width`.
      let t2 ← csub name.length 1
      pure (x_start + (box_internal_width + 1) / 2 - t2 / 2)
  -- name characters, with the `name_start_x + i >= canvas.width` break
  let canvas ← (name.toList.enum.takeWhile
        (fun p => name_start_x + p.1 < canvas.width)).foldlM
      (fun c p => c.set_char (name_start_x + p.1) (y + 1) p.2) canvas
  let canvas ← canvas.set_char x_end (y + 1) '|'
  -- Bottom border
  let canvas ← canvas.set_char x_start (y + 2) '└'
  let canvas ← (List.range' (x_start + 1) (x_end - (x_start + 1))).foldlM
      (fun c x => c.set_char x (y + 2) '─') canvas
  canvas.set_char x_end (y + 2) '┘'

def render (gantt_layout : GanttLayout) : Option String := do
  let canvas := Canvas.new gantt_layout.width gantt_layout.height
  let canvas ← gantt_layout.tick_layouts.foldlM (fun c t => draw_tick t c) canvas
  let canvas ← gantt_layout.task_layouts.foldlM (fun c t => draw_task t c) canvas
  pure canvas.to_string

end Gantt

/-! ## Sequence diagrams (`src/parser.rs` model, `src/layout.rs`, `src/renderer.rs`) -/

namespace Sequence

/-- `parser::Edge`; the Rust fields are named `from`/`to` (`from` is a Lean
keyword, so they become `src`/`dst`). -/
structure Edge where
  src : String
  dst : String
  message : Option String
deriving DecidableEq

structure SequenceDiagram where
  participants : List String
  edges : List Edge
deriving DecidableEq

structure ParticipantLayout where
  name : String
  center_x : Nat
  top_box_y : Nat
  bottom_box_y : Nat
  width : Nat
deriving DecidableEq

inductive ArrowDirection where
  | Left
  | Right
deriving DecidableEq

structure EdgeLayout where
  start_x : Nat
  end_x : Nat
  y : Nat
  direction : ArrowDirection
  message : Option String
deriving DecidableEq

structure LifelineLayout where
  x : Nat
  start_y : Nat
  end_y : Nat
deriving DecidableEq

structure SequenceDiagramLayout where
  participant_layouts : List ParticipantLayout
  edge_layouts : List EdgeLayout
  lifeline_layouts : List LifelineLayout
  width : Nat
  height : Nat
deriving DecidableEq

def EDGE_SPACING : Nat := 1
def PARTICIPANT_HEIGHT : Nat := 3
def PARTICIPANT_PADDING_X : Nat := 1
def MESSAGE_PADDING_X : Nat := 1
def BORDER_WIDTH : Nat := 1

def MARGIN_LEFT : Nat := 1
def MARGIN_RIGHT : Nat := 1
def MARGIN_TOP : Nat := 1
def MARGIN_BOTTOM : Nat := 1

/-- `count_edges`: `(edges_with_message, edges_without_message)`. -/
def count_edges (sequence_diagram : SequenceDiagram) : Nat × Nat :=
  sequence_diagram.edges.foldl
    (fun acc edge => if edge.message.isSome then (acc.1 + 1, acc.2) else (acc.1, acc.2 + 1))
    (0, 0)

/-- `max_edge_width`: widest message (plus padding) among the edges joining
`part1` and `part2` in either direction. -/
def max_edge_width (edges : List Edge) (part1 part2 : String) : Nat :=
  edges.foldl
    (fun max_width edge =>
      if (edge.src = part1 ∧ edge.dst = part2) ∨ (edge.src = part2 ∧ edge.dst = part1) then
        match edge.message with
        | some msg => max max_width (msg.length + MESSAGE_PADDING_X * 2)
        | none => max_width
      else max_width)
    0

/-- The spacing between two adjacent participants inside
`calculate_horizontal_positions`: the larger of the no-overlap gap
(`space_without_message`) and the widest connecting label plus one
(`space_with_message + 1`). -/
def space_between (edges : List Edge) (left_part right_part : String) : Nat :=
  let space_without_message := left_part.length / 2
    + 2 * PARTICIPANT_PADDING_X + 2 * BORDER_WIDTH + (right_part.length + 1) / 2
  let space_with_message := max_edge_width edges left_part right_part
  max space_without_message (space_with_message + 1)

/-- The greedy adjacent-pair spacing step of `calculate_horizontal_positions`
(the body of its `for i in 1..parts.len()` loop). -/
def positions_go (edges : List Edge) : String → Nat → List String → List Nat
  | _, _, [] => []
  | left_part, current_position, right_part :: rest =>
      (current_position + space_between edges left_part right_part)
        :: positions_go edges right_part
            (current_position + space_between edges left_part right_part) rest

def calculate_horizontal_positions (sequence_diagram : SequenceDiagram) : List Nat :=
  match sequence_diagram.participants with
  | [] => []
  | name :: rest =>
      let current_position :=
        MARGIN_LEFT - 1 + BORDER_WIDTH + PARTICIPANT_PADDING_X + name.length / 2
      current_position :: positions_go sequence_diagram.edges name current_position rest

/-- `calculate_participant_layouts`; `positions[index]` is total in Rust only
because the positions list always has one entry per participant (proved
below), so `getD` is a faithful rendering. -/
def calculate_participant_layouts (total_height : Nat)
    (sequence_diagram : SequenceDiagram) (positions : List Nat) : List ParticipantLayout :=
  sequence_diagram.participants.enum.map (fun p =>
    { name := p.2
      center_x := positions.getD p.1 0
      top_box_y := MARGIN_TOP
      bottom_box_y := total_height - MARGIN_BOTTOM
      width := p.2.length + PARTICIPANT_PADDING_X * 2 + BORDER_WIDTH * 2 })

/-- The per-edge loop of `calculate_edge_layouts`.  `participants.indexOf`
models `position(..).unwrap()`: the claims assume every edge endpoint occurs
among the participants (guaranteed by the parser), so the `unwrap` cannot
fail.  `positions[i] - 1` cannot underflow: every position is `≥ 2`. -/
def edge_layouts_go (sequence_diagram : SequenceDiagram) (positions : List Nat) :
    List Edge → Nat → List EdgeLayout
  | [], _ => []
  | edge :: rest, current_y =>
      let from_index := sequence_diagram.participants.indexOf edge.src
      let to_index := sequence_diagram.participants.indexOf edge.dst
      let arrow_direction :=
        if from_index < to_index then ArrowDirection.Right else ArrowDirection.Left
      let se : Nat × Nat :=
        match arrow_direction with
        | ArrowDirection.Right => (positions.getD from_index 0 + 1, positions.getD to_index 0 - 1)
        | ArrowDirection.Left => (positions.getD from_index 0 - 1, positions.getD to_index 0 + 1)
      { start_x := se.1
        end_x := se.2
        y := current_y
        direction := arrow_direction
        message := edge.message }
        :: edge_layouts_go sequence_diagram positions rest
            (current_y + EDGE_SPACING + 1 + (if edge.message.isSome then 1 else 0))

def calculate_edge_layouts (sequence_diagram : SequenceDiagram) (positions : List Nat) :
    List EdgeLayout :=
  edge_layouts_go sequence_diagram positions sequence_diagram.edges
    (MARGIN_TOP + PARTICIPANT_HEIGHT + EDGE_SPACING)

def calculate_lifeline_layouts (total_height : Nat) (positions : List Nat) :
    List LifelineLayout :=
  positions.map (fun position =>
    { start_y := MARGIN_TOP + PARTICIPANT_HEIGHT
      end_y := total_height - MARGIN_BOTTOM - PARTICIPANT_HEIGHT - EDGE_SPACING
      x := position })

def calculate_sequence_layout (sequence_diagram : SequenceDiagram) : SequenceDiagramLayout :=
  let counts := count_edges sequence_diagram
  let edges_with_message := counts.1
  let edges_without_message := counts.2
  let total_height := (edges_with_message + edges_without_message + 1) * EDGE_SPACING
    + edges_with_message * 2
    + edges_without_message * 1
    + PARTICIPANT_HEIGHT * 2
    + MARGIN_TOP
    + MARGIN_BOTTOM
  let positions := calculate_horizontal_positions sequence_diagram
  let last_part_position := positions.getLast?.getD 0
  let last_part_width := (sequence_diagram.participants.getLast?.map String.length).getD 0
    + PARTICIPANT_PADDING_X * 2 + BORDER_WIDTH * 2
  let total_width := last_part_position + last_part_width / 2 + MARGIN_RIGHT + 1
  { edge_layouts := calculate_edge_layouts sequence_diagram positions
    lifeline_layouts := calculate_lifeline_layouts total_height positions
    participant_layouts :=
      calculate_participant_layouts total_height sequence_diagram positions
    width := total_width
    height := total_height }

/-! ### Sequence renderer (`src/renderer.rs`) -/

def draw_box (canvas : Canvas) (center_x left_x right_x y : Nat) (name : String)
    (is_top_box : Bool) : Option Canvas := do
  -- Top border
  let canvas ← canvas.set_char left_x y '┌'
  let canvas ← (List.range' (left_x + 1) (right_x - (left_x + 1))).foldlM
      (fun c x => c.set_char x y '─') canvas
  let canvas ← canvas.set_char right_x y '┐'
  -- Middle line
  let canvas ← canvas.set_char left_x (y + 1) '│'
  -- `center_x - (name.width() - 1) / 2`: both subtractions can underflow.
  let t ← csub name.length 1
  let name_start_x ← csub center_x (t / 2)
  let canvas ← (name.toList.enum).foldlM
      (fun c p => c.set_char (name_start_x + p.1) (y + 1) p.2) canvas
  let canvas ← canvas.set_char right_x (y + 1) '│'
  -- Bottom border
  let canvas ← canvas.set_char left_x (y + 2) '└'
  let canvas ← (List.range' (left_x + 1) (right_x - (left_x + 1))).foldlM
      (fun c x => c.set_char x (y + 2) '─') canvas
  let canvas ← canvas.set_char right_x (y + 2) '┘'
  if is_top_box then canvas.set_char center_x (y + 2) '┬'
  else canvas.set_char center_x y '┴'

def draw_participant_boxes (canvas : Canvas) (participant_layout : ParticipantLayout) :
    Option Canvas := do
  let half_width := (participant_layout.width + 1) / 2
  let center_x := participant_layout.center_x
  -- `center_x - half_width + 1`: the subtraction happens first and can
  -- underflow (it does for an odd-width first participant).
  let t ← csub center_x half_width
  let left_x := t + 1
  let right_x := left_x + participant_layout.width - 1
  let canvas ← draw_box canvas center_x left_x right_x
      participant_layout.top_box_y participant_layout.name true
  let t2 ← csub participant_layout.bottom_box_y PARTICIPANT_HEIGHT
  draw_box canvas center_x left_x right_x t2 participant_layout.name false

def draw_lifeline (canvas : Canvas) (lifeline_layout : LifelineLayout) : Option Canvas :=
  (List.range' lifeline_layout.start_y
      (lifeline_layout.end_y + 1 - lifeline_layout.start_y)).foldlM
    (fun c y => c.set_char lifeline_layout.x y '│') canvas

/-- The `(start_x, end_x, arrow_head)` normalisation at the top of
`draw_edge`. -/
def normalized (edge_layout : EdgeLayout) : Nat × Nat × Char :=
  match edge_layout.direction with
  | ArrowDirection.Right => (edge_layout.start_x, edge_layout.end_x, '>')
  | ArrowDirection.Left => (edge_layout.end_x, edge_layout.start_x, '<')

/-- Which column receives the arrowhead in `draw_edge`. -/
def arrowhead_x (edge_layout : EdgeLayout) : Nat :=
  match edge_layout.direction with
  | ArrowDirection.Right => (normalized edge_layout).2.1
  | ArrowDirection.Left => (normalized edge_layout).1

/-- The character used for the arrowhead in `draw_edge`. -/
def arrow_head_char (edge_layout : EdgeLayout) : Char := (normalized edge_layout).2.2

/-- The label start column computed inside `draw_edge`
(`(start_x + end_x) / 2 - msg.width() / 2`, after normalisation). -/
def message_start_x (edge_layout : EdgeLayout) (msg : String) : Option Nat :=
  let n := normalized edge_layout
  csub ((n.1 + n.2.1) / 2) (msg.length / 2)

def draw_edge (canvas : Canvas) (edge_layout : EdgeLayout) : Option Canvas := do
  let n := normalized edge_layout
  let start_x := n.1
  let end_x := n.2.1
  let arrow_head := n.2.2
  let edge_y := if edge_layout.message.isSome then edge_layout.y + 1 else edge_layout.y
  let canvas ← (List.range' start_x (end_x + 1 - start_x)).foldlM
      (fun c x => c.set_char x edge_y '─') canvas
  let canvas ← canvas.set_char (arrowhead_x edge_layout) edge_y arrow_head
  match edge_layout.message with
  | none => pure canvas
  | some msg => do
      let msx ← message_start_x edge_layout msg
      (msg.toList.enum).foldlM
        (fun c p => c.set_char (msx + p.1) edge_layout.y p.2) canvas

def render (seq_diagram_layout : SequenceDiagramLayout) : Option String := do
  let canvas := Canvas.new seq_diagram_layout.width seq_diagram_layout.height
  let canvas ← seq_diagram_layout.participant_layouts.foldlM draw_participant_boxes canvas
  let canvas ← seq_diagram_layout.lifeline_layouts.foldlM draw_lifeline canvas
  let canvas ← seq_diagram_layout.edge_layouts.foldlM draw_edge canvas
  pure canvas.to_string

end Sequence

/-! ## DAG layering (`src/graph/parser.rs` model, `src/graph/layout.rs`)

`HashSet`/`HashMap`/`VecDeque` become a node list (iterated in list order),
total functions over `String`, and a `List String` queue.  The rank map is
an insertion-ordered association list; under the claims' well-formedness
hypotheses its keys are distinct, so it agrees with the `HashMap`. -/

namespace DAG

/-- `graph::parser::Edge`; the Rust fields are named `from`/`to`. -/
structure GEdge where
  src : String
  dst : String
deriving DecidableEq

structure Graph where
  nodes : List String
  edges : List GEdge
deriving DecidableEq

/-- `build_adjacency_graph` as a function: the successors of `u`, in edge
order.  (The Rust `HashMap` has entries exactly for the nodes and the edge
sources; `assign_ranks` only queries it at nodes, where the two agree.) -/
def build_adjacency_graph (graph : Graph) (u : String) : List String :=
  (graph.edges.filter (fun e => e.src = u)).map (fun e => e.dst)

/-- The initial in-degree map (`in_degrees` after its two build loops). -/
def in_degree0 (graph : Graph) (v : String) : Nat :=
  (graph.edges.filter (fun e => e.dst = v)).length

/-- Processing one successor inside the inner `for neighbor in adjacency`
loop: decrement its in-degree, and push it onto the queue if it reached
zero.  (The decrement never underflows in a reachable state; see
`kahn_layer_spec`.) -/
def kahn_process_target (st : (String → Nat) × List String) (v : String) :
    (String → Nat) × List String :=
  let d := st.1 v - 1
  (Function.update st.1 v d, if d = 0 then st.2 ++ [v] else st.2)

/-- One drain of the entire current frontier (`current_layer_size` pops):
returns the updated in-degrees and the next frontier, in push order. -/
def kahn_layer (adjacency : String → List String) (in_degrees : String → Nat)
    (layer : List String) : (String → Nat) × List String :=
  ((layer.map adjacency).join).foldl kahn_process_target (in_degrees, [])

/-- The `while !queue.is_empty()` loop of `assign_ranks`.  The fuel
`graph.nodes.length` bounds the number of layers: each executed layer ranks
at least one previously unranked node (`kahnLoop_post` shows the queue is
empty whenever the fuel could run out, so the fuelled loop equals the
unbounded one). -/
def kahnLoop (adjacency : String → List String) :
    Nat → (String → Nat) → List String → Nat → List (String × Nat) → List (String × Nat)
  | 0, _, _, _, ranks => ranks
  | fuel + 1, in_degrees, queue, current_rank, ranks =>
      if queue = [] then ranks
      else
        let step := kahn_layer adjacency in_degrees queue
        kahnLoop adjacency fuel step.1 step.2 (current_rank + 1)
          (ranks ++ queue.map (fun node => (node, current_rank)))

def assign_ranks (graph : Graph) : List (String × Nat) :=
  let adjacency := build_adjacency_graph graph
  let in_degrees := in_degree0 graph
  let queue := graph.nodes.filter (fun node => in_degrees node = 0)
  kahnLoop adjacency graph.nodes.length in_degrees queue 0 []

/-- The edge relation of a graph: `u → v` for some listed edge. -/
def edgeRel (graph : Graph) (u v : String) : Prop :=
  ∃ e ∈ graph.edges, e.src = u ∧ e.dst = v

/-- A graph is acyclic when no node reaches itself through a nonempty
edge path. -/
def Acyclic (graph : Graph) : Prop :=
  ∀ x, ¬ Relation.TransGen (edgeRel graph) x x

/-- Edge endpoints all lie in the node set (guaranteed by
`graph::parser::parse`, which inserts both endpoints of every edge). -/
def WellFormed (graph : Graph) : Prop :=
  ∀ e ∈ graph.edges, e.src ∈ graph.nodes ∧ e.dst ∈ graph.nodes

/-- Number of in-edges of `v` coming from sources in `s`. -/
def inFrom (graph : Graph) (s : List String) (v : String) : Nat :=
  (graph.edges.filter (fun e => e.dst = v ∧ e.src ∈ s)).length

end DAG

/-! ## Concrete inputs used by the claims -/

namespace Gantt

/-- The spec's Gantt scenario, with 2026-01-01 as day 0: Design 1/1–1/5,
Implementation 1/5–1/15, Testing 1/15–1/20, Bugfix 1/20–2/3,
Release 2/3–2/6 — a 36-day span. -/
def demo_chart : GanttChart :=
  ⟨[⟨0, 4, "Design"⟩, ⟨4, 14, "Implementation"⟩, ⟨14, 19, "Testing"⟩,
    ⟨19, 33, "Bugfix"⟩, ⟨33, 36, "Release"⟩]⟩

/-- A chart whose only task starts and ends on the same day
(`total_days = 0`). -/
def zero_span_chart : GanttChart := ⟨[⟨5, 5, "Design"⟩]⟩

/-- A chart with a nonzero global span containing one task whose start and
end dates coincide — its bar gets `x_start = x_end = 66`. -/
def zero_width_chart : GanttChart := ⟨[⟨0, 10, "Launch"⟩, ⟨5, 5, "Freeze"⟩]⟩

/-- The layout `layout` produces for `zero_width_chart`
(proved in `layout_zero_width_eval`): the Freeze bar degenerates to
`x_start = x_end = 66`. -/
def zero_width_layout : GanttLayout :=
  { task_layouts := [⟨6, 126, 2, "Launch"⟩, ⟨66, 66, 5, "Freeze"⟩]
    tick_layouts := (List.range 10).map (fun i => ⟨6 + 13 * i, (i : Int)⟩)
    width := 132
    height := 11 }

/-- The layout `layout` produces for `demo_chart`
(proved in `layout_demo_eval`). -/
def demo_layout : GanttLayout :=
  { task_layouts :=
      [⟨6, 19, 2, "Design"⟩, ⟨19, 52, 5, "Implementation"⟩, ⟨52, 69, 8, "Testing"⟩,
       ⟨69, 116, 11, "Bugfix"⟩, ⟨116, 126, 14, "Release"⟩]
    tick_layouts := (List.range 10).map (fun i => ⟨6 + 13 * i, (4 * i : Int)⟩)
    width := 132
    height := 20 }

end Gantt

namespace Sequence

/-- C9's scenario: `Client -> Server: Login` followed by
`Client <- Server: LoginSuccess`.  (The parser maps `A <- B: msg` to an
edge *from* `B` *to* `A`; participants are listed in first-appearance
order.) -/
def demo_diagram : SequenceDiagram :=
  ⟨["Client", "Server"],
   [⟨"Client", "Server", some "Login"⟩, ⟨"Server", "Client", some "LoginSuccess"⟩]⟩

/-- Two ten-column participants joined by a twelve-column label: the greedy
spacing is `max(14, 14+1) = 15`, so the label, centred between the centers,
overlaps both box spans. -/
def wide_diagram : SequenceDiagram :=
  ⟨["ServerGate", "ClientSide"], [⟨"ServerGate", "ClientSide", some "AuthGranted1"⟩]⟩

/-- Three participants with a thirty-column label between the *non-adjacent*
outer pair; the adjacent-pair spacing never sees that label. -/
def nonadjacent_diagram : SequenceDiagram :=
  ⟨["Anna", "Bert", "Carl"],
   [⟨"Anna", "Bert", none⟩, ⟨"Bert", "Carl", none⟩,
    ⟨"Anna", "Carl", some "ALongMessageThatNobodyMeasured"⟩]⟩

/-- A minimal diagram with one unlabeled edge. -/
def one_edge_diagram : SequenceDiagram := ⟨["Ann", "Ben"], [⟨"Ann", "Ben", none⟩]⟩

/-- Modelled from the spec's wording for the total height (claim C8): "one
row of spacing before the first edge, plus for each edge 1 row if unlabeled
or 2 rows if labeled, plus fixed header/footer participant-box heights and
top/bottom margins". -/
def spec_height (sequence_diagram : SequenceDiagram) : Nat :=
  1 + (count_edges sequence_diagram).1 * 2 + (count_edges sequence_diagram).2 * 1
    + PARTICIPANT_HEIGHT * 2 + MARGIN_TOP + MARGIN_BOTTOM

/-- The column span of a participant's drawn box, as integers
(`draw_participant_boxes`: `left = center - (width+1)/2 + 1`,
`right = left + width - 1`). -/
def box_left_x (participant_layout : ParticipantLayout) : Int :=
  (participant_layout.center_x : Int) - (((participant_layout.width + 1) / 2 : Nat) : Int) + 1

def box_right_x (participant_layout : ParticipantLayout) : Int :=
  box_left_x participant_layout + (participant_layout.width : Int) - 1

/-- The `i`-th participant center column (`positions[i]`). -/
def posIdx (sequence_diagram : SequenceDiagram) (i : Nat) : Nat :=
  (calculate_horizontal_positions sequence_diagram).getD i 0

/-- The `i`-th participant name (`participants[i]`). -/
def partIdx (sequence_diagram : SequenceDiagram) (i : Nat) : String :=
  sequence_diagram.participants.getD i ""

/-- The diagrams for which the renderer provably stays in bounds:
* every edge endpoint occurs among the participants (the parser guarantees
  this; otherwise `position(..).unwrap()` panics),
* every participant name is nonempty (an empty name underflows
  `name.width() - 1` in `draw_box`),
* the first participant's name has even display width (an odd width
  underflows `center_x - half_width` when drawing its box), and
* every labeled edge joins participants adjacent in position order (the
  greedy spacing only budgets labels of adjacent pairs). -/
def GoodDiagram (sd : SequenceDiagram) : Prop :=
  (∀ e ∈ sd.edges, e.src ∈ sd.participants ∧ e.dst ∈ sd.participants)
  ∧ (∀ p ∈ sd.participants, 1 ≤ p.length)
  ∧ (sd.participants.headD "").length % 2 = 0
  ∧ (∀ e ∈ sd.edges, e.message.isSome →
      sd.participants.indexOf e.src + 1 = sd.participants.indexOf e.dst
      ∨ sd.participants.indexOf e.dst + 1 = sd.participants.indexOf e.src)

end Sequence

namespace DAG

/-- The state invariant of `kahnLoop`, holding at every layer boundary.
`ranks.map Prod.fst` is the set of already-processed (popped) nodes. -/
structure KahnInv (g : Graph) (in_degrees : String → Nat) (queue : List String)
    (current_rank : Nat) (ranks : List (String × Nat)) : Prop where
  keys_nodup : (ranks.map Prod.fst).Nodup
  keys_sub : ∀ v ∈ ranks.map Prod.fst, v ∈ g.nodes
  keys_deg : ∀ v ∈ ranks.map Prod.fst, in_degrees v = 0
  queue_nodup : queue.Nodup
  queue_char : ∀ v, v ∈ queue ↔ (v ∈ g.nodes ∧ in_degrees v = 0 ∧ v ∉ ranks.map Prod.fst)
  degs_eq : ∀ v, in_degrees v + inFrom g (ranks.map Prod.fst) v = in_degree0 g v
  ranks_lt : ∀ p ∈ ranks, p.2 < current_rank
  ranks_edge : ∀ e ∈ g.edges, ∀ rv, (e.dst, rv) ∈ ranks →
      ∃ ru, (e.src, ru) ∈ ranks ∧ ru < rv

/-- What holds of the final rank list when the queue has drained. -/
structure KahnPost (g : Graph) (ranks : List (String × Nat)) : Prop where
  keys_nodup : (ranks.map Prod.fst).Nodup
  keys_sub : ∀ v ∈ ranks.map Prod.fst, v ∈ g.nodes
  ranks_edge : ∀ e ∈ g.edges, ∀ rv, (e.dst, rv) ∈ ranks →
      ∃ ru, (e.src, ru) ∈ ranks ∧ ru < rv
  unranked_pred : ∀ v ∈ g.nodes, v ∉ ranks.map Prod.fst →
      ∃ e ∈ g.edges, e.dst = v ∧ e.src ∈ g.nodes ∧ e.src ∉ ranks.map Prod.fst

/-- Occurrence count of `v` in a list (used to track how many pending
decrements a node will receive during one layer). -/
def cnt (ts : List String) (v : String) : Nat :=
  (ts.filter (fun x => x = v)).length

/-- A small acyclic graph used as a witness input. -/
def line_graph : Graph := ⟨["a", "b", "c"], [⟨"a", "b"⟩, ⟨"b", "c"⟩]⟩

end DAG

/-! # Theorems

Helper lemmas first, then one theorem per claim (with a witness where the
theorem carries hypotheses). -/

/-! ## Canvas lemmas and claim C3 -/

namespace Canvas

theorem set_char_dims {c c' : Canvas} {x y : Nat} {ch : Char}
    (h : c.set_char x y ch = some c') : c'.width = c.width ∧ c'.height = c.height := by
  simp only [set_char] at h
  split at h
  · cases h; exact ⟨rfl, rfl⟩
  · cases h

theorem set_char_some {c : Canvas} {x y : Nat} (ch : Char)
    (hx : x < c.width) (hy : y < c.height) :
    ∃ c', c.set_char x y ch = some c' ∧ c'.width = c.width ∧ c'.height = c.height := by
  refine ⟨{ c with grid := c.grid.set y ((c.grid.getD y []).set x ch) }, ?_, rfl, rfl⟩
  simp [set_char, hx, hy]

theorem set_char_none {c : Canvas} {x y : Nat} (ch : Char)
    (h : c.width ≤ x ∨ c.height ≤ y) : c.set_char x y ch = none := by
  simp only [set_char, ite_eq_right_iff]
  intro hc
  omega

theorem get_char_some {c : Canvas} {x y : Nat}
    (hx : x < c.width) (hy : y < c.height) : (c.get_char x y).isSome := by
  simp [get_char, hx, hy]

theorem get_char_none {c : Canvas} {x y : Nat}
    (h : c.width ≤ x ∨ c.height ≤ y) : c.get_char x y = none := by
  simp only [get_char, ite_eq_right_iff]
  intro hc
  omega

end Canvas

/-- C3: On a canvas of any size ≥ 1×1, `set_char` and `get_char` succeed at
every coordinate with `x < width` and `y < height`, and fail (the fatal
`panic!`, modelled as `none`) whenever `x ≥ width` or `y ≥ height`; a
successful `set_char` moreover preserves the dimensions, so the guarantee
persists across draw passes. -/
theorem canvas_set_get_bounds (w h x y : Nat) (ch : Char) (hw : 1 ≤ w) (hh : 1 ≤ h) :
    ((x < w ∧ y < h) →
      (∃ c', (Canvas.new w h).set_char x y ch = some c'
          ∧ c'.width = w ∧ c'.height = h)
      ∧ ((Canvas.new w h).get_char x y).isSome)
    ∧ ((w ≤ x ∨ h ≤ y) →
      (Canvas.new w h).set_char x y ch = none ∧ (Canvas.new w h).get_char x y = none) := by
  constructor
  · rintro ⟨hx, hy⟩
    exact ⟨Canvas.set_char_some ch hx hy, Canvas.get_char_some hx hy⟩
  · intro hout
    exact ⟨Canvas.set_char_none ch hout, Canvas.get_char_none hout⟩

/-- Witness for C3 at a concrete 3×2 canvas. -/
theorem canvas_set_get_bounds_witness :
    (1 ≤ 3 ∧ 1 ≤ 2)
    ∧ (((1 < 3 ∧ 1 < 2) →
        (∃ c', (Canvas.new 3 2).set_char 1 1 'a' = some c'
            ∧ c'.width = 3 ∧ c'.height = 2)
        ∧ ((Canvas.new 3 2).get_char 1 1).isSome)
      ∧ ((3 ≤ 1 ∨ 2 ≤ 1) →
        (Canvas.new 3 2).set_char 1 1 'a' = none ∧ (Canvas.new 3 2).get_char 1 1 = none)) :=
  ⟨⟨by decide, by decide⟩, canvas_set_get_bounds 3 2 1 1 'a' (by decide) (by decide)⟩

/-! ## Gantt helper lemmas and claims C2, C4, C5, C10 -/

namespace Gantt

theorem ratFloor_eq_intFloor (q : ℚ) : q.floor = ⌊q⌋ := by
  rw [Rat.floor_def]
  exact Rat.floor_def' q

theorem date_to_x_at_min (a : Int) (ppd : ℚ) : date_to_x a a ppd = 0 := by
  simp [date_to_x, ratFloor_eq_intFloor]

theorem date_to_x_at_max (a b : Int) (hab : a < b) :
    date_to_x b a ((CHART_WIDTH : ℚ) / (((b - a).toNat : Nat) : ℚ)) = CHART_WIDTH := by
  have hD : 0 < (b - a).toNat := by omega
  have hne : ((((b - a).toNat : Nat) : ℚ)) ≠ 0 := by
    have hz : (b - a).toNat ≠ 0 := by omega
    exact_mod_cast hz
  unfold date_to_x
  rw [ratFloor_eq_intFloor, mul_comm, div_mul_cancel₀ _ hne]
  rw [Int.floor_natCast]
  simp

/-- Evaluating the rational mapping: multiplying by the exact ratio
`CHART_WIDTH / D` and flooring is integer division on the numerator. -/
theorem date_to_x_div (date min_date : Int) (D : Nat) :
    date_to_x date min_date ((CHART_WIDTH : ℚ) / (D : ℚ))
      = (date - min_date).toNat * CHART_WIDTH / D := by
  unfold date_to_x
  rw [ratFloor_eq_intFloor]
  have h1 : (((date - min_date).toNat : ℚ)) * ((CHART_WIDTH : ℚ) / (D : ℚ))
      = ((((date - min_date).toNat * CHART_WIDTH : ℕ)) : ℚ) / (D : ℚ) := by
    push_cast
    ring
  rw [h1, Rat.floor_natCast_div_natCast, ← Int.natCast_div]
  exact Int.toNat_natCast _

/-- `layout` on the demo chart, evaluated. -/
theorem layout_demo_eval : layout demo_chart = some demo_layout := by
  have hr : find_date_range demo_chart = (0, 36) := by decide
  have hD : ((36 : Int) - 0).toNat = 36 := by decide
  have htick : layout_ticks 0 36 = demo_layout.tick_layouts := by decide
  have htask : layout_tasks demo_chart 0 ((CHART_WIDTH : ℚ) / ((36 : Nat) : ℚ))
      = demo_layout.task_layouts := by
    simp only [layout_tasks, layout_tasks_go, demo_chart, date_to_x_div]
    decide
  simp only [layout, hr, hD]
  rw [if_neg (by decide), htask, htick]
  decide

/-- `layout` on the zero-width-task chart, evaluated. -/
theorem layout_zero_width_eval : layout zero_width_chart = some zero_width_layout := by
  have hr : find_date_range zero_width_chart = (0, 10) := by decide
  have hD : ((10 : Int) - 0).toNat = 10 := by decide
  have htick : layout_ticks 0 10 = zero_width_layout.tick_layouts := by decide
  have htask : layout_tasks zero_width_chart 0 ((CHART_WIDTH : ℚ) / ((10 : Nat) : ℚ))
      = zero_width_layout.task_layouts := by
    simp only [layout_tasks, layout_tasks_go, zero_width_chart, date_to_x_div]
    decide
  simp only [layout, hr, hD]
  rw [if_neg (by decide), htask, htick]
  decide

end Gantt

/-- C2: for every chart with a non-degenerate date span, the rational
date-to-column mapping used by `layout_tasks` is exact at the boundaries:
the minimum date lands on `MARGIN_LEFT` and the maximum date on
`MARGIN_LEFT + CHART_WIDTH`. -/
theorem gantt_date_to_x_boundary_exact (gc : Gantt.GanttChart)
    (h : (Gantt.find_date_range gc).1 < (Gantt.find_date_range gc).2) :
    Gantt.date_to_x (Gantt.find_date_range gc).1 (Gantt.find_date_range gc).1
        ((Gantt.CHART_WIDTH : ℚ)
          / ((((Gantt.find_date_range gc).2 - (Gantt.find_date_range gc).1).toNat : Nat) : ℚ))
      + Gantt.MARGIN_LEFT = Gantt.MARGIN_LEFT
    ∧ Gantt.date_to_x (Gantt.find_date_range gc).2 (Gantt.find_date_range gc).1
        ((Gantt.CHART_WIDTH : ℚ)
          / ((((Gantt.find_date_range gc).2 - (Gantt.find_date_range gc).1).toNat : Nat) : ℚ))
      + Gantt.MARGIN_LEFT = Gantt.MARGIN_LEFT + Gantt.CHART_WIDTH := by
  constructor
  · rw [Gantt.date_to_x_at_min]
    exact Nat.zero_add _
  · rw [Gantt.date_to_x_at_max _ _ h, Nat.add_comm]

/-- Witness for C2 on the spec's 36-day demo chart. -/
theorem gantt_date_to_x_boundary_exact_witness :
    (Gantt.find_date_range Gantt.demo_chart).1 < (Gantt.find_date_range Gantt.demo_chart).2
    ∧ (Gantt.date_to_x (Gantt.find_date_range Gantt.demo_chart).1
          (Gantt.find_date_range Gantt.demo_chart).1
          ((Gantt.CHART_WIDTH : ℚ)
            / ((((Gantt.find_date_range Gantt.demo_chart).2
                - (Gantt.find_date_range Gantt.demo_chart).1).toNat : Nat) : ℚ))
        + Gantt.MARGIN_LEFT = Gantt.MARGIN_LEFT
      ∧ Gantt.date_to_x (Gantt.find_date_range Gantt.demo_chart).2
          (Gantt.find_date_range Gantt.demo_chart).1
          ((Gantt.CHART_WIDTH : ℚ)
            / ((((Gantt.find_date_range Gantt.demo_chart).2
                - (Gantt.find_date_range Gantt.demo_chart).1).toNat : Nat) : ℚ))
        + Gantt.MARGIN_LEFT = Gantt.MARGIN_LEFT + Gantt.CHART_WIDTH) :=
  ⟨by decide, gantt_date_to_x_boundary_exact Gantt.demo_chart (by decide)⟩

/-- C4: the source does NOT special-case a zero date span: with
`total_days = 0` the ratio `Ratio::new(CHART_WIDTH, 0)` has a zero
denominator and `layout` panics (modelled as `none`) instead of applying a
fallback. -/
theorem gantt_layout_zero_span_none : Gantt.layout Gantt.zero_span_chart = none := by
  decide

/-- C5 counterexample: on the spec's demo chart the code produces
`(CHART_WIDTH / MIN_TICK_SPACING).max(2) = 10` axis ticks, not 12. -/
theorem gantt_demo_tick_count_not_twelve :
    (Gantt.layout Gantt.demo_chart).map (fun l => l.tick_layouts.length) = some 10
    ∧ (Gantt.layout Gantt.demo_chart).map (fun l => l.tick_layouts.length) ≠ some 12 := by
  rw [Gantt.layout_demo_eval]
  constructor
  · decide
  · decide

/-- C5 (amended): on the demo chart every bar is non-degenerate
(`x_start < x_end`), consecutive bars touch at most at a shared boundary
column (monotonically increasing, interior-disjoint spans), and there are
exactly 10 ticks, evenly spaced 13 columns apart from `MARGIN_LEFT`. -/
theorem gantt_demo_layout_spans_and_ticks :
    ∃ l, Gantt.layout Gantt.demo_chart = some l
      ∧ l.task_layouts.map (fun t => (t.x_start, t.x_end))
          = [(6, 19), (19, 52), (52, 69), (69, 116), (116, 126)]
      ∧ (∀ t ∈ l.task_layouts, t.x_start < t.x_end)
      ∧ (∀ p ∈ l.task_layouts.zip l.task_layouts.tail, p.1.x_end ≤ p.2.x_start)
      ∧ l.tick_layouts.length = max (Gantt.CHART_WIDTH / Gantt.MIN_TICK_SPACING) 2
      ∧ l.tick_layouts.length = 10
      ∧ l.tick_layouts.map Gantt.TickLayout.x
          = (List.range 10).map (fun i => Gantt.MARGIN_LEFT + 13 * i) := by
  refine ⟨Gantt.demo_layout, Gantt.layout_demo_eval, ?_, ?_, ?_, ?_, ?_, ?_⟩
  · decide
  · decide
  · decide
  · decide
  · decide
  · decide

/-- A monadic fold over `Option` fails outright if some list element always
fails. -/
theorem foldlM_none_of_mem {α β : Type} {f : β → α → Option β} {l : List α} {a : α}
    (ha : a ∈ l) (hf : ∀ b, f b a = none) : ∀ b, l.foldlM f b = none := by
  induction l with
  | nil => cases ha
  | cons x xs ih =>
      intro b
      rcases List.mem_cons.mp ha with rfl | hxs
      · simp [List.foldlM_cons, hf b]
      · cases hx : f b x with
        | none => simp [List.foldlM_cons, hx]
        | some b' => simp [List.foldlM_cons, hx, ih hxs]

namespace Gantt

/-- `draw_task` panics before drawing anything when the bar is degenerate:
`x_end - x_start - 1` underflows whenever `x_end ≤ x_start`. -/
theorem draw_task_none {t : TaskLayout} (h : t.x_end ≤ t.x_start) (c : Canvas) :
    draw_task t c = none := by
  rcases Nat.lt_or_ge t.x_end t.x_start with hlt | hge
  · simp [draw_task, csub_eq_none hlt]
  · have heq : t.x_start = t.x_end := le_antisymm hge h
    simp [draw_task, csub, heq]

theorem render_none_of_degenerate_task {gl : GanttLayout} {t : TaskLayout}
    (ht : t ∈ gl.task_layouts) (h : t.x_end ≤ t.x_start) : render gl = none := by
  unfold render
  cases hticks : gl.tick_layouts.foldlM (fun c t => draw_tick t c)
      (Canvas.new gl.width gl.height) with
  | none => simp [hticks]
  | some c =>
      have htasks : gl.task_layouts.foldlM (fun c t => draw_task t c) c = none :=
        foldlM_none_of_mem ht (fun b => draw_task_none h b) c
      simp [hticks, htasks]

end Gantt

/-- C10: Gantt rendering succeeds only when every task bar spans at least
two distinct columns.  A task layout with `x_start = x_end` — which
`layout_tasks` produces for dates satisfying the documented `end ≥ start`
precondition, e.g. a task whose start and end dates coincide — makes
`draw_task`'s interior-width subtraction `x_end - x_start - 1` underflow,
and rendering fails. -/
theorem gantt_render_degenerate_task_fails (gl : Gantt.GanttLayout) :
    ((∃ t ∈ gl.task_layouts, t.x_start = t.x_end) → Gantt.render gl = none)
    ∧ (Gantt.render gl ≠ none → ∀ t ∈ gl.task_layouts, t.x_start < t.x_end) := by
  constructor
  · rintro ⟨t, ht, hx⟩
    exact Gantt.render_none_of_degenerate_task ht (le_of_eq hx.symm)
  · intro hne t ht
    by_contra hlt
    exact hne (Gantt.render_none_of_degenerate_task ht (by omega))

/-- Witness for C10: the layout of `zero_width_chart` (a real `layout`
output, see `layout_zero_width_eval`) contains the degenerate Freeze bar
and indeed fails to render. -/
theorem gantt_render_degenerate_task_fails_witness :
    (∃ t ∈ Gantt.zero_width_layout.task_layouts, t.x_start = t.x_end)
    ∧ Gantt.render Gantt.zero_width_layout = none :=
  ⟨by decide, (gantt_render_degenerate_task_fails Gantt.zero_width_layout).1 (by decide)⟩

/-! ## Sequence-diagram claims C8 and C9 -/

namespace Sequence

/-- `count_edges` counts exactly the labeled/unlabeled edges. -/
theorem count_edges_go (edges : List Edge) (acc : Nat × Nat) :
    edges.foldl
        (fun acc edge => if edge.message.isSome then (acc.1 + 1, acc.2) else (acc.1, acc.2 + 1))
        acc
      = (acc.1 + (edges.filter (fun e => e.message.isSome)).length,
         acc.2 + (edges.filter (fun e => e.message.isNone)).length) := by
  induction edges generalizing acc with
  | nil => simp
  | cons e rest ih =>
      cases hm : e.message with
      | none => simp [ih, hm, Nat.add_assoc, Nat.add_comm 1]
      | some m => simp [ih, hm, Nat.add_assoc, Nat.add_comm 1]

theorem count_edges_eq (sequence_diagram : SequenceDiagram) :
    count_edges sequence_diagram
      = ((sequence_diagram.edges.filter (fun e => e.message.isSome)).length,
         (sequence_diagram.edges.filter (fun e => e.message.isNone)).length) := by
  unfold count_edges
  rw [count_edges_go]
  simp

end Sequence

/-- C8 counterexample: for one unlabeled edge the computed height is 11,
while the claim's formula (one spacing row total) gives 10. -/
theorem sequence_height_formula_counterexample :
    (Sequence.calculate_sequence_layout Sequence.one_edge_diagram).height = 11
    ∧ Sequence.spec_height Sequence.one_edge_diagram = 10
    ∧ (Sequence.calculate_sequence_layout Sequence.one_edge_diagram).height
        ≠ Sequence.spec_height Sequence.one_edge_diagram := by
  refine ⟨by decide, by decide, by decide⟩

/-- C8 (amended): the total height is `(L + U + 1) * EDGE_SPACING` —
one spacing row before each edge plus one extra — plus 2 rows per labeled
edge, 1 per unlabeled edge, the two participant-box heights, and the
top and bottom margins. -/
theorem sequence_height_formula (sd : Sequence.SequenceDiagram) :
    (Sequence.calculate_sequence_layout sd).height
      = ((sd.edges.filter (fun e => e.message.isSome)).length
            + (sd.edges.filter (fun e => e.message.isNone)).length + 1) * Sequence.EDGE_SPACING
        + (sd.edges.filter (fun e => e.message.isSome)).length * 2
        + (sd.edges.filter (fun e => e.message.isNone)).length * 1
        + Sequence.PARTICIPANT_HEIGHT * 2 + Sequence.MARGIN_TOP + Sequence.MARGIN_BOTTOM := by
  simp [Sequence.calculate_sequence_layout, Sequence.count_edges_eq]

/-- C9: on `Client -> Server: Login` / `Client <- Server: LoginSuccess`,
Client's center (5) is strictly left of Server's (20); the first edge points
right with its `>` arrowhead one column before Server's center; the second
points left with its `<` arrowhead one column after Client's center; and the
second edge's row (8) is strictly greater than the first's (5). -/
theorem sequence_demo_scenario :
    (Sequence.calculate_sequence_layout Sequence.demo_diagram).participant_layouts.map
        (fun p => (p.name, p.center_x)) = [("Client", 5), ("Server", 20)]
    ∧ (Sequence.calculate_sequence_layout Sequence.demo_diagram).edge_layouts.map
        (fun e => (e.direction, Sequence.arrowhead_x e, Sequence.arrow_head_char e, e.y))
      = [(Sequence.ArrowDirection.Right, 20 - 1, '>', 5),
         (Sequence.ArrowDirection.Left, 5 + 1, '<', 8)]
    ∧ (5 : Nat) < 20 ∧ (5 : Nat) < 8 := by
  refine ⟨by decide, by decide, by decide, by decide⟩

/-- C7 counterexample: on `wide_diagram` the box spans are `[1,14]` and
`[16,29]`, but the label starts at column 8 — inside the first box's span
(and it ends at 19, inside the second's) — so the label is *not* strictly
between the two participant boxes. -/
theorem sequence_wide_label_not_between_boxes :
    (Sequence.calculate_sequence_layout Sequence.wide_diagram).participant_layouts.map
        (fun p => (Sequence.box_left_x p, Sequence.box_right_x p)) = [(1, 14), (16, 29)]
    ∧ (Sequence.calculate_sequence_layout Sequence.wide_diagram).edge_layouts.map
        (fun e => Sequence.message_start_x e "AuthGranted1") = [some 8]
    ∧ ¬ ((14 : Int) < (8 : Nat))
    ∧ ¬ ((8 + 12 - 1 : Int) < 16) := by
  refine ⟨by decide, by decide, by decide, by decide⟩

/-- C6 counterexample: on `nonadjacent_diagram` the label between the
non-adjacent pair is wider than the span the greedy spacing reserved, the
label-centering subtraction underflows, and rendering fails with the fatal
canvas error (modelled as `none`). -/
theorem sequence_nonadjacent_label_render_fails :
    Sequence.render (Sequence.calculate_sequence_layout Sequence.nonadjacent_diagram)
      = none := by
  decide

/-! ## Sequence layout geometry: the greedy spacing -/

namespace Sequence

theorem box_gap_le_space (edges : List Edge) (a b : String) :
    a.length / 2 + 4 + (b.length + 1) / 2 ≤ space_between edges a b := by
  have h := le_max_left
    (a.length / 2 + 2 * PARTICIPANT_PADDING_X + 2 * BORDER_WIDTH + (b.length + 1) / 2)
    (max_edge_width edges a b + 1)
  simpa [space_between, PARTICIPANT_PADDING_X, BORDER_WIDTH, Nat.add_assoc] using h

theorem space_pos (edges : List Edge) (a b : String) : 4 ≤ space_between edges a b := by
  have := box_gap_le_space edges a b
  omega

theorem max_edge_width_foldl_mono (a b : String) (edges : List Edge) :
    ∀ acc : Nat,
      acc ≤ edges.foldl
        (fun max_width edge =>
          if (edge.src = a ∧ edge.dst = b) ∨ (edge.src = b ∧ edge.dst = a) then
            match edge.message with
            | some msg => max max_width (msg.length + MESSAGE_PADDING_X * 2)
            | none => max_width
          else max_width)
        acc := by
  induction edges with
  | nil => intro acc; simp
  | cons e rest ih =>
      intro acc
      rw [List.foldl_cons]
      refine le_trans ?_ (ih _)
      dsimp only
      split
      · cases e.message <;> simp
      · exact le_rfl

theorem max_edge_width_foldl_ge {e : Edge} {msg : String} (a b : String)
    (hmsg : e.message = some msg)
    (hab : (e.src = a ∧ e.dst = b) ∨ (e.src = b ∧ e.dst = a)) :
    ∀ (edges : List Edge) (acc : Nat), e ∈ edges →
      msg.length + MESSAGE_PADDING_X * 2
        ≤ edges.foldl
          (fun max_width edge =>
            if (edge.src = a ∧ edge.dst = b) ∨ (edge.src = b ∧ edge.dst = a) then
              match edge.message with
              | some msg => max max_width (msg.length + MESSAGE_PADDING_X * 2)
              | none => max_width
            else max_width)
          acc := by
  intro edges
  induction edges with
  | nil => intro acc he; cases he
  | cons x rest ih =>
      intro acc he
      rcases List.mem_cons.mp he with rfl | hrest
      · rw [List.foldl_cons]
        simp only [hab, if_pos, hmsg]
        exact le_trans (le_max_right _ _) (max_edge_width_foldl_mono a b rest _)
      · rw [List.foldl_cons]
        exact ih _ hrest

theorem max_edge_width_ge {edges : List Edge} {e : Edge} {msg : String} (a b : String)
    (he : e ∈ edges) (hmsg : e.message = some msg)
    (hab : (e.src = a ∧ e.dst = b) ∨ (e.src = b ∧ e.dst = a)) :
    msg.length + MESSAGE_PADDING_X * 2 ≤ max_edge_width edges a b :=
  max_edge_width_foldl_ge a b hmsg hab edges 0 he

theorem label_lt_space {edges : List Edge} {e : Edge} {msg : String} (a b : String)
    (he : e ∈ edges) (hmsg : e.message = some msg)
    (hab : (e.src = a ∧ e.dst = b) ∨ (e.src = b ∧ e.dst = a)) :
    msg.length + 3 ≤ space_between edges a b := by
  have h1 := max_edge_width_ge a b he hmsg hab
  have h2 := le_max_right
    (a.length / 2 + 2 * PARTICIPANT_PADDING_X + 2 * BORDER_WIDTH + (b.length + 1) / 2)
    (max_edge_width edges a b + 1)
  simp only [space_between, MESSAGE_PADDING_X] at h1 h2 ⊢
  omega

theorem positions_go_length (edges : List Edge) :
    ∀ (ps : List String) (prev : String) (cur : Nat),
      (positions_go edges prev cur ps).length = ps.length := by
  intro ps
  induction ps with
  | nil => intro prev cur; simp [positions_go]
  | cons p rest ih => intro prev cur; simp [positions_go, ih]

theorem positions_go_consecutive (edges : List Edge) :
    ∀ (ps : List String) (prev : String) (cur i : Nat), i + 1 < (prev :: ps).length →
      (cur :: positions_go edges prev cur ps).getD (i + 1) 0
        = (cur :: positions_go edges prev cur ps).getD i 0
          + space_between edges ((prev :: ps).getD i "") ((prev :: ps).getD (i + 1) "") := by
  intro ps
  induction ps with
  | nil => intro prev cur i h; simp at h
  | cons p rest ih =>
      intro prev cur i h
      match i with
      | 0 => simp [positions_go]
      | Nat.succ j =>
          have hj : j + 1 < (p :: rest).length := by
            simpa using Nat.lt_of_succ_lt_succ h
          simpa [positions_go] using
            ih p (cur + space_between edges prev p) j hj

end Sequence

namespace Sequence

theorem chp_length (sd : SequenceDiagram) :
    (calculate_horizontal_positions sd).length = sd.participants.length := by
  unfold calculate_horizontal_positions
  cases sd.participants with
  | nil => simp
  | cons p rest => simp [positions_go_length]

theorem chp_zero (sd : SequenceDiagram) (hne : sd.participants ≠ []) :
    posIdx sd 0 = 2 + (partIdx sd 0).length / 2 := by
  unfold posIdx partIdx calculate_horizontal_positions
  cases hp : sd.participants with
  | nil => exact absurd hp hne
  | cons p rest =>
      simp [MARGIN_LEFT, BORDER_WIDTH, PARTICIPANT_PADDING_X]

theorem chp_consecutive (sd : SequenceDiagram) (i : Nat)
    (h : i + 1 < sd.participants.length) :
    posIdx sd (i + 1) = posIdx sd i + space_between sd.edges (partIdx sd i) (partIdx sd (i + 1)) := by
  unfold posIdx partIdx calculate_horizontal_positions
  cases hp : sd.participants with
  | nil => rw [hp] at h; simp at h
  | cons p rest =>
      rw [hp] at h
      simpa using positions_go_consecutive sd.edges rest p
        (MARGIN_LEFT - 1 + BORDER_WIDTH + PARTICIPANT_PADDING_X + p.length / 2) i h

theorem chp_lower (sd : SequenceDiagram) :
    ∀ i, i < sd.participants.length → 2 + (partIdx sd i).length / 2 ≤ posIdx sd i := by
  intro i
  induction i with
  | zero =>
      intro h
      have hne : sd.participants ≠ [] := by
        intro hnil; rw [hnil] at h; simp at h
      rw [chp_zero sd hne]
  | succ j ih =>
      intro h
      have hj : j < sd.participants.length := by omega
      have hcons := chp_consecutive sd j h
      have hgap := box_gap_le_space sd.edges (partIdx sd j) (partIdx sd (j + 1))
      have hlow := ih hj
      omega

theorem chp_strict_mono (sd : SequenceDiagram) (i : Nat)
    (h : i + 1 < sd.participants.length) :
    posIdx sd i + 4 ≤ posIdx sd (i + 1) := by
  have hcons := chp_consecutive sd i h
  have := space_pos sd.edges (partIdx sd i) (partIdx sd (i + 1))
  omega

theorem chp_mono (sd : SequenceDiagram) :
    ∀ j i, i ≤ j → j < sd.participants.length → posIdx sd i ≤ posIdx sd j := by
  intro j
  induction j with
  | zero =>
      intro i hij _
      have h0 : i = 0 := by omega
      rw [h0]
  | succ k ih =>
      intro i hij hj
      rcases Nat.lt_or_ge i (k + 1) with hik | hik
      · have h1 := ih i (by omega) (by omega)
        have h2 := chp_strict_mono sd k hj
        omega
      · have : i = k + 1 := by omega
        subst this
        exact le_rfl

end Sequence

namespace Sequence

theorem indexOf_lt (l : List String) (a : String) (ha : a ∈ l) : l.indexOf a < l.length :=
  List.indexOf_lt_length.mpr ha

theorem getD_indexOf (l : List String) (a : String) (ha : a ∈ l) :
    l.getD (l.indexOf a) "" = a := by
  induction l with
  | nil => cases ha
  | cons x rest ih =>
      by_cases hx : a = x
      · subst hx
        simp [List.indexOf_cons_self]
      · have hmem : a ∈ rest := by
          rcases List.mem_cons.mp ha with h | h
          · exact absurd h hx
          · exact h
        rw [List.indexOf_cons_ne _ (fun h => hx h.symm)]
        simpa using ih hmem

theorem chp_pair_gap (sd : SequenceDiagram) :
    ∀ j i, i < j → j < sd.participants.length →
      posIdx sd i + (partIdx sd i).length / 2 + 4 + ((partIdx sd j).length + 1) / 2
        ≤ posIdx sd j := by
  intro j
  induction j with
  | zero => intro i hij _; omega
  | succ k ih =>
      intro i hij hk
      have hcons := chp_consecutive sd k hk
      have hgap := box_gap_le_space sd.edges (partIdx sd k) (partIdx sd (k + 1))
      rcases Nat.lt_or_ge i k with hik | hik
      · have := ih i hik (by omega)
        omega
      · have hieq : i = k := by omega
        subst hieq
        omega

theorem filter_isSome_add_isNone (edges : List Edge) :
    (edges.filter (fun e => e.message.isSome)).length
      + (edges.filter (fun e => e.message.isNone)).length = edges.length := by
  induction edges with
  | nil => simp
  | cons e rest ih =>
      cases hm : e.message <;> simp [List.filter_cons, hm] <;> omega

theorem edge_rows_sum (edges : List Edge) :
    (edges.map (fun e => 2 + if e.message.isSome then 1 else 0)).sum
      = 2 * edges.length + (edges.filter (fun e => e.message.isSome)).length := by
  induction edges with
  | nil => simp
  | cons e rest ih =>
      cases hm : e.message <;> simp [List.filter_cons, hm, ih] <;> omega

/-- The computed total height, in closed form. -/
theorem height_eq (sd : SequenceDiagram) :
    (calculate_sequence_layout sd).height
      = (sd.edges.map (fun e => 2 + if e.message.isSome then 1 else 0)).sum + 9 := by
  have hc := count_edges_eq sd
  have hf := filter_isSome_add_isNone sd.edges
  have hs := edge_rows_sum sd.edges
  simp only [calculate_sequence_layout, hc, EDGE_SPACING, PARTICIPANT_HEIGHT,
    MARGIN_TOP, MARGIN_BOTTOM]
  omega

theorem height_ge_nine (sd : SequenceDiagram) :
    9 ≤ (calculate_sequence_layout sd).height := by
  rw [height_eq]
  omega

end Sequence

namespace Sequence

/-- Every generated edge layout comes from a listed edge, with the
direction/endpoint formulas of `calculate_edge_layouts` and with its rows
confined to the band the enclosing `current_y` bookkeeping reserves. -/
theorem mem_edge_layouts_go {sd : SequenceDiagram} {positions : List Nat} :
    ∀ {es : List Edge} {cy : Nat} {el : EdgeLayout}, el ∈ edge_layouts_go sd positions es cy →
      ∃ e ∈ es,
        el.message = e.message
        ∧ cy ≤ el.y
        ∧ el.y + (if el.message.isSome then 1 else 0) + 2
            ≤ cy + (es.map (fun e => 2 + if e.message.isSome then 1 else 0)).sum
        ∧ ((sd.participants.indexOf e.src < sd.participants.indexOf e.dst
            ∧ el.direction = ArrowDirection.Right
            ∧ el.start_x = positions.getD (sd.participants.indexOf e.src) 0 + 1
            ∧ el.end_x = positions.getD (sd.participants.indexOf e.dst) 0 - 1)
          ∨ (¬ sd.participants.indexOf e.src < sd.participants.indexOf e.dst
            ∧ el.direction = ArrowDirection.Left
            ∧ el.start_x = positions.getD (sd.participants.indexOf e.src) 0 - 1
            ∧ el.end_x = positions.getD (sd.participants.indexOf e.dst) 0 + 1)) := by
  intro es
  induction es with
  | nil => intro cy el h; cases h
  | cons e rest ih =>
      intro cy el h
      rw [edge_layouts_go] at h
      rcases List.mem_cons.mp h with rfl | htail
      · refine ⟨e, List.mem_cons_self e rest, rfl, le_rfl, ?_, ?_⟩
        · simp only [List.map_cons, List.sum_cons]
          have : (0 : Nat) ≤ (rest.map (fun e => 2 + if e.message.isSome then 1 else 0)).sum :=
            Nat.zero_le _
          split <;> omega
        · by_cases hlt : sd.participants.indexOf e.src < sd.participants.indexOf e.dst
          · left
            refine ⟨hlt, ?_, ?_, ?_⟩ <;> simp [hlt]
          · right
            refine ⟨hlt, ?_, ?_, ?_⟩ <;> simp [hlt]
      · obtain ⟨e', he', hmsg, hylo, hyhi, hdir⟩ := ih htail
        refine ⟨e', List.mem_cons_of_mem e he', hmsg, ?_, ?_, hdir⟩
        · have hES : EDGE_SPACING = 1 := rfl
          omega
        · have hES : EDGE_SPACING = 1 := rfl
          simp only [List.map_cons, List.sum_cons]
          rcases hm : e.message with _ | m <;> rcases hm' : el.message with _ | m' <;>
            simp only [hm, hm', Option.isSome_some, Option.isSome_none] at hyhi ⊢ <;> omega

end Sequence

namespace Sequence

theorem participant_layouts_getElem? (sd : SequenceDiagram) (i : Nat)
    (h : i < sd.participants.length) :
    (calculate_sequence_layout sd).participant_layouts[i]?
      = some { name := partIdx sd i, center_x := posIdx sd i, top_box_y := MARGIN_TOP,
               bottom_box_y := (calculate_sequence_layout sd).height - MARGIN_BOTTOM,
               width := (partIdx sd i).length + PARTICIPANT_PADDING_X * 2 + BORDER_WIDTH * 2 } := by
  show (calculate_participant_layouts _ sd (calculate_horizontal_positions sd))[i]? = _
  unfold calculate_participant_layouts
  rw [List.getElem?_map]
  have henum : sd.participants.enum[i]? = some (i, sd.participants[i]) := by
    rw [List.getElem?_enum, List.getElem?_eq_getElem h]
    rfl
  rw [henum]
  have hpart : partIdx sd i = sd.participants[i] := by
    unfold partIdx
    rw [List.getD_eq_getElem?_getD, List.getElem?_eq_getElem h]
    rfl
  have hpos : (calculate_horizontal_positions sd).getD i 0 = posIdx sd i := rfl
  simp only [Option.map_some']
  rw [← hpart, hpos]
  rfl

theorem participant_layouts_length (sd : SequenceDiagram) :
    (calculate_sequence_layout sd).participant_layouts.length = sd.participants.length := by
  show (calculate_participant_layouts _ sd _).length = _
  unfold calculate_participant_layouts
  simp

theorem width_eq (sd : SequenceDiagram) (hne : sd.participants ≠ []) :
    (calculate_sequence_layout sd).width
      = posIdx sd (sd.participants.length - 1)
        + ((partIdx sd (sd.participants.length - 1)).length + 4) / 2 + 2 := by
  have hlen : (calculate_horizontal_positions sd).length = sd.participants.length :=
    chp_length sd
  have hplen : 0 < sd.participants.length := List.length_pos.mpr hne
  have hclen : (calculate_horizontal_positions sd) ≠ [] := by
    intro hc
    rw [hc] at hlen
    simp at hlen
    omega
  show (calculate_horizontal_positions sd).getLast?.getD 0
      + (((sd.participants.getLast?.map String.length).getD 0
          + PARTICIPANT_PADDING_X * 2 + BORDER_WIDTH * 2) / 2) + MARGIN_RIGHT + 1 = _
  have h1 : (calculate_horizontal_positions sd).getLast?.getD 0
      = posIdx sd (sd.participants.length - 1) := by
    unfold posIdx
    rw [List.getLast?_eq_getElem?, List.getD_eq_getElem?_getD, hlen]
  have h2 : (sd.participants.getLast?.map String.length).getD 0
      = (partIdx sd (sd.participants.length - 1)).length := by
    unfold partIdx
    rw [List.getLast?_eq_getElem?, List.getD_eq_getElem?_getD]
    rw [List.getElem?_eq_getElem (by omega)]
    simp [List.getD_eq_getElem?_getD, List.getElem?_eq_getElem (by omega : sd.participants.length - 1 < sd.participants.length)]
  rw [h1, h2]
  simp [MARGIN_RIGHT, PARTICIPANT_PADDING_X, BORDER_WIDTH]
  omega

end Sequence

namespace Sequence

/-- For every labeled edge between adjacent participants, the label start
column exists (no underflow) and the label lies strictly between the two
lifeline columns. -/
theorem label_msx (sd : SequenceDiagram)
    (hwf : ∀ e ∈ sd.edges, e.src ∈ sd.participants ∧ e.dst ∈ sd.participants)
    (hadj : ∀ e ∈ sd.edges, e.message.isSome →
        sd.participants.indexOf e.src + 1 = sd.participants.indexOf e.dst
        ∨ sd.participants.indexOf e.dst + 1 = sd.participants.indexOf e.src) :
    ∀ el ∈ (calculate_sequence_layout sd).edge_layouts,
      ∀ msg, el.message = some msg →
      ∃ msx, message_start_x el msg = some msx
        ∧ (normalized el).1 ≤ msx
        ∧ msx + msg.length ≤ (normalized el).2.1 + 1 := by
  intro el hel msg hmsg
  have hel' : el ∈ edge_layouts_go sd (calculate_horizontal_positions sd)
      sd.edges (MARGIN_TOP + PARTICIPANT_HEIGHT + EDGE_SPACING) := hel
  obtain ⟨e, he, hmsge, _, _, hdir⟩ := mem_edge_layouts_go hel'
  have hemsg : e.message = some msg := by rw [← hmsge]; exact hmsg
  have hsrc := (hwf e he).1
  have hdst := (hwf e he).2
  have hia : sd.participants.indexOf e.src < sd.participants.length :=
    indexOf_lt _ _ hsrc
  have hib : sd.participants.indexOf e.dst < sd.participants.length :=
    indexOf_lt _ _ hdst
  have hsrc_eq : partIdx sd (sd.participants.indexOf e.src) = e.src :=
    getD_indexOf _ _ hsrc
  have hdst_eq : partIdx sd (sd.participants.indexOf e.dst) = e.dst :=
    getD_indexOf _ _ hdst
  rcases hadj e he (by rw [hemsg]; rfl) with hcase | hcase
  · -- source is directly left of target: rightward edge
    rcases hdir with ⟨hlt, hdirR, hsx, hex⟩ | ⟨hnlt, _, _, _⟩
    · have hcons := chp_consecutive sd (sd.participants.indexOf e.src)
        (by omega)
      rw [hcase, hsrc_eq, hdst_eq] at hcons
      have hlab : msg.length + 3
          ≤ space_between sd.edges e.src e.dst := by
        have := label_lt_space e.src e.dst he hemsg
          (Or.inl ⟨rfl, rfl⟩)
        exact this
      have hnorm : normalized el = (el.start_x, el.end_x, '>') := by
        unfold normalized
        rw [hdirR]
      have hsx' : el.start_x
          = posIdx sd (sd.participants.indexOf e.src) + 1 := hsx
      have hex' : el.end_x
          = posIdx sd (sd.participants.indexOf e.dst) - 1 := hex
      rw [hnorm]
      unfold message_start_x
      rw [hnorm]
      simp only
      rw [hsx', hex']
      refine ⟨_, csub_eq_some (by omega), by omega, by omega⟩
    · omega
  · -- target is directly left of source: leftward edge
    rcases hdir with ⟨hlt, _, _, _⟩ | ⟨hnlt, hdirL, hsx, hex⟩
    · omega
    · have hcons := chp_consecutive sd (sd.participants.indexOf e.dst)
        (by omega)
      rw [hcase, hdst_eq, hsrc_eq] at hcons
      have hlab : msg.length + 3
          ≤ space_between sd.edges e.dst e.src := by
        have := label_lt_space e.dst e.src he hemsg
          (Or.inr ⟨rfl, rfl⟩)
        exact this
      have hnorm : normalized el = (el.end_x, el.start_x, '<') := by
        unfold normalized
        rw [hdirL]
      have hsx' : el.start_x
          = posIdx sd (sd.participants.indexOf e.src) - 1 := hsx
      have hex' : el.end_x
          = posIdx sd (sd.participants.indexOf e.dst) + 1 := hex
      rw [hnorm]
      unfold message_start_x
      rw [hnorm]
      simp only
      rw [hsx', hex']
      refine ⟨_, csub_eq_some (by omega), by omega, by omega⟩


end Sequence

/-- C7 (amended): for *every* sequence diagram, no two participant box
column spans overlap — unconditionally; and for every labeled edge between
*adjacent* participants (with its endpoints among the listed participants)
the label's rendered span lies strictly between the two participants'
lifeline columns (the spec's §9 limitation: wide labels can still overlap
the boxes themselves, and non-adjacent labels are not budgeted at all — see
the counterexample). -/
theorem sequence_boxes_disjoint_labels_between :
    (∀ sd : Sequence.SequenceDiagram, ∀ i j, i < j → j < sd.participants.length →
        Sequence.box_right_x
            ((Sequence.calculate_sequence_layout sd).participant_layouts.getD i ⟨"", 0, 0, 0, 0⟩)
          < Sequence.box_left_x
            ((Sequence.calculate_sequence_layout sd).participant_layouts.getD j ⟨"", 0, 0, 0, 0⟩))
    ∧ (∀ sd : Sequence.SequenceDiagram,
        (∀ e ∈ sd.edges, e.src ∈ sd.participants ∧ e.dst ∈ sd.participants) →
        (∀ e ∈ sd.edges, e.message.isSome →
            sd.participants.indexOf e.src + 1 = sd.participants.indexOf e.dst
            ∨ sd.participants.indexOf e.dst + 1 = sd.participants.indexOf e.src) →
        ∀ el ∈ (Sequence.calculate_sequence_layout sd).edge_layouts,
          ∀ msg, el.message = some msg →
          ∃ msx, Sequence.message_start_x el msg = some msx
            ∧ (Sequence.normalized el).1 ≤ msx
            ∧ msx + msg.length ≤ (Sequence.normalized el).2.1 + 1) := by
  constructor
  · intro sd i j hij hj
    have hi : i < sd.participants.length := lt_trans hij hj
    have hgi := Sequence.participant_layouts_getElem? sd i hi
    have hgj := Sequence.participant_layouts_getElem? sd j hj
    rw [List.getD_eq_getElem?_getD, hgi, List.getD_eq_getElem?_getD, hgj]
    have hgap := Sequence.chp_pair_gap sd j i hij hj
    simp only [Sequence.box_right_x, Sequence.box_left_x, Option.getD_some,
      Sequence.PARTICIPANT_PADDING_X, Sequence.BORDER_WIDTH]
    omega
  · intro sd hwf hadj
    exact Sequence.label_msx sd hwf hadj

/-- Witness for C7 on the Client/Server demo diagram: the unconditional
disjointness conjunct instantiated there, and the label conjunct with its
adjacency hypotheses discharged. -/
theorem sequence_boxes_disjoint_labels_between_witness :
    ((∀ e ∈ Sequence.demo_diagram.edges,
        e.src ∈ Sequence.demo_diagram.participants
        ∧ e.dst ∈ Sequence.demo_diagram.participants)
      ∧ (∀ e ∈ Sequence.demo_diagram.edges, e.message.isSome →
          Sequence.demo_diagram.participants.indexOf e.src + 1
              = Sequence.demo_diagram.participants.indexOf e.dst
          ∨ Sequence.demo_diagram.participants.indexOf e.dst + 1
              = Sequence.demo_diagram.participants.indexOf e.src))
    ∧ ((∀ i j, i < j → j < Sequence.demo_diagram.participants.length →
        Sequence.box_right_x
            ((Sequence.calculate_sequence_layout Sequence.demo_diagram).participant_layouts.getD i
              ⟨"", 0, 0, 0, 0⟩)
          < Sequence.box_left_x
            ((Sequence.calculate_sequence_layout Sequence.demo_diagram).participant_layouts.getD j
              ⟨"", 0, 0, 0, 0⟩))
      ∧ (∀ el ∈ (Sequence.calculate_sequence_layout Sequence.demo_diagram).edge_layouts,
          ∀ msg, el.message = some msg →
          ∃ msx, Sequence.message_start_x el msg = some msx
            ∧ (Sequence.normalized el).1 ≤ msx
            ∧ msx + msg.length ≤ (Sequence.normalized el).2.1 + 1)) :=
  ⟨⟨by decide, by decide⟩,
    ⟨fun i j hij hj =>
      sequence_boxes_disjoint_labels_between.1 Sequence.demo_diagram i j hij hj,
     sequence_boxes_disjoint_labels_between.2 Sequence.demo_diagram
       (by decide) (by decide)⟩⟩

/-- Folding a dimension-preserving, always-succeeding drawing step over a
list succeeds and preserves the dimensions. -/
theorem foldlM_dims {α : Type} {W H : Nat} {f : Canvas → α → Option Canvas} {l : List α}
    (h : ∀ a ∈ l, ∀ c : Canvas, c.width = W → c.height = H →
      ∃ c', f c a = some c' ∧ c'.width = W ∧ c'.height = H) :
    ∀ c : Canvas, c.width = W → c.height = H →
      ∃ c', l.foldlM f c = some c' ∧ c'.width = W ∧ c'.height = H := by
  induction l with
  | nil => intro c hw hh; exact ⟨c, by simp, hw, hh⟩
  | cons x xs ih =>
      intro c hw hh
      obtain ⟨c1, hc1, hw1, hh1⟩ := h x (List.mem_cons_self x xs) c hw hh
      obtain ⟨c2, hc2, hw2, hh2⟩ := ih (fun a ha => h a (List.mem_cons_of_mem x ha)) c1 hw1 hh1
      exact ⟨c2, by rw [List.foldlM_cons, hc1]; simpa using hc2, hw2, hh2⟩

/-- A horizontal-run fold (`for x in x0..x1`) succeeds when the row is in
range and the last column written is in range. -/
theorem hrun_some {W H : Nat} (x0 len y : Nat) (ch : Char)
    (hy : y < H) (hx : x0 + len ≤ W) :
    ∀ c : Canvas, c.width = W → c.height = H →
      ∃ c', (List.range' x0 len).foldlM (fun c x => c.set_char x y ch) c = some c'
        ∧ c'.width = W ∧ c'.height = H := by
  refine foldlM_dims ?_
  intro x hxmem c hw hh
  have hb := List.mem_range'_1.mp hxmem
  obtain ⟨c', hset, hw', hh'⟩ := @Canvas.set_char_some c x y ch (by omega) (by omega)
  exact ⟨c', hset, by omega, by omega⟩

/-- A vertical-run fold (`for y in y0..=y1`) succeeds likewise. -/
theorem vrun_some {W H : Nat} (y0 len x : Nat) (ch : Char)
    (hx : x < W) (hy : y0 + len ≤ H) :
    ∀ c : Canvas, c.width = W → c.height = H →
      ∃ c', (List.range' y0 len).foldlM (fun c y => c.set_char x y ch) c = some c'
        ∧ c'.width = W ∧ c'.height = H := by
  refine foldlM_dims ?_
  intro y hymem c hw hh
  have hb := List.mem_range'_1.mp hymem
  obtain ⟨c', hset, hw', hh'⟩ := @Canvas.set_char_some c x y ch (by omega) (by omega)
  exact ⟨c', hset, by omega, by omega⟩

theorem enum_fst_lt {α : Type} {l : List α} {p : Nat × α} (h : p ∈ l.enum) :
    p.1 < l.length := by
  rw [List.enum_eq_zip_range] at h
  have := (List.of_mem_zip h).1
  simpa using this

/-- A text run (`for (i, ch) in s.chars().enumerate()`) succeeds when the
row is in range and the last character lands in range. -/
theorem textrun_some {W H : Nat} {sx y : Nat} {s : String}
    (hy : y < H) (hx : sx + s.length ≤ W ∨ s.length = 0) :
    ∀ c : Canvas, c.width = W → c.height = H →
      ∃ c', (s.toList.enum).foldlM
          (fun c p => c.set_char (sx + p.1) y p.2) c = some c'
        ∧ c'.width = W ∧ c'.height = H := by
  refine foldlM_dims ?_
  intro p hp c hw hh
  have hplt : p.1 < s.toList.length := enum_fst_lt hp
  have hslen : s.toList.length = s.length := rfl
  obtain ⟨c', hset, hw', hh'⟩ := @Canvas.set_char_some c (sx + p.1) y p.2
    (by omega) (by omega)
  exact ⟨c', hset, by omega, by omega⟩

/-- `set_char` with the dimensions tracked globally. -/
theorem set_char_someW {W H : Nat} (x y : Nat) (ch : Char) (hx : x < W) (hy : y < H) :
    ∀ c : Canvas, c.width = W → c.height = H →
      ∃ c', c.set_char x y ch = some c' ∧ c'.width = W ∧ c'.height = H := by
  intro c hw hh
  obtain ⟨c', h, hw', hh'⟩ := @Canvas.set_char_some c x y ch (by omega) (by omega)
  exact ⟨c', h, by omega, by omega⟩

namespace Sequence

theorem draw_box_some {W H : Nat} (center_x left_x right_x y : Nat) (name : String)
    (is_top_box : Bool)
    (hlr : left_x ≤ right_x) (hr : right_x < W) (hy : y + 2 < H)
    (hn1 : 1 ≤ name.length)
    (hts : (name.length - 1) / 2 ≤ center_x)
    (hname : center_x - (name.length - 1) / 2 + name.length ≤ W)
    (hc : center_x < W) :
    ∀ c : Canvas, c.width = W → c.height = H →
      ∃ c', draw_box c center_x left_x right_x y name is_top_box = some c'
        ∧ c'.width = W ∧ c'.height = H := by
  intro c hw hh
  obtain ⟨c1, h1, hwc1, hhc1⟩ := set_char_someW left_x y '┌' (by omega) (by omega) c hw hh
  obtain ⟨c2, h2, hwc2, hhc2⟩ :=
    hrun_some (left_x + 1) (right_x - (left_x + 1)) y '─' (by omega) (by omega) c1 hwc1 hhc1
  obtain ⟨c3, h3, hwc3, hhc3⟩ := set_char_someW right_x y '┐' (by omega) (by omega) c2 hwc2 hhc2
  obtain ⟨c4, h4, hwc4, hhc4⟩ :=
    set_char_someW left_x (y + 1) '│' (by omega) (by omega) c3 hwc3 hhc3
  have h5 : csub name.length 1 = some (name.length - 1) := csub_eq_some hn1
  have h6 : csub center_x ((name.length - 1) / 2)
      = some (center_x - (name.length - 1) / 2) := csub_eq_some hts
  obtain ⟨c5, h7, hwc5, hhc5⟩ :=
    @textrun_some W H (center_x - (name.length - 1) / 2) (y + 1) name (by omega)
      (Or.inl (by omega)) c4 hwc4 hhc4
  obtain ⟨c6, h8, hwc6, hhc6⟩ :=
    set_char_someW right_x (y + 1) '│' (by omega) (by omega) c5 hwc5 hhc5
  obtain ⟨c7, h9, hwc7, hhc7⟩ :=
    set_char_someW left_x (y + 2) '└' (by omega) (by omega) c6 hwc6 hhc6
  obtain ⟨c8, h10, hwc8, hhc8⟩ :=
    hrun_some (left_x + 1) (right_x - (left_x + 1)) (y + 2) '─' (by omega) (by omega) c7 hwc7 hhc7
  obtain ⟨c9, h11, hwc9, hhc9⟩ :=
    set_char_someW right_x (y + 2) '┘' (by omega) (by omega) c8 hwc8 hhc8
  cases is_top_box with
  | false =>
      obtain ⟨c10, h12, hwc10, hhc10⟩ :=
        set_char_someW center_x y '┴' (by omega) (by omega) c9 hwc9 hhc9
      refine ⟨c10, ?_, hwc10, hhc10⟩
      simp only [draw_box, h1, h2, h3, h4, h5, h6, h7, h8, h9, h10, h11, h12,
        Option.bind_eq_bind, Option.some_bind, Option.pure_def,
        Bool.false_eq_true, if_false]
  | true =>
      obtain ⟨c10, h12, hwc10, hhc10⟩ :=
        set_char_someW center_x (y + 2) '┬' (by omega) (by omega) c9 hwc9 hhc9
      refine ⟨c10, ?_, hwc10, hhc10⟩
      simp only [draw_box, h1, h2, h3, h4, h5, h6, h7, h8, h9, h10, h11, h12,
        Option.bind_eq_bind, Option.some_bind, Option.pure_def, if_true]

end Sequence

namespace Sequence

theorem draw_participant_boxes_some {W H : Nat} (pl : ParticipantLayout)
    (hhalf : (pl.width + 1) / 2 ≤ pl.center_x)
    (hw1 : 1 ≤ pl.width)
    (hr : pl.center_x - (pl.width + 1) / 2 + 1 + pl.width - 1 < W)
    (hyt : pl.top_box_y + 2 < H)
    (hbot : PARTICIPANT_HEIGHT ≤ pl.bottom_box_y)
    (hyb : pl.bottom_box_y - PARTICIPANT_HEIGHT + 2 < H)
    (hn1 : 1 ≤ pl.name.length)
    (hts : (pl.name.length - 1) / 2 ≤ pl.center_x)
    (hname : pl.center_x - (pl.name.length - 1) / 2 + pl.name.length ≤ W)
    (hc : pl.center_x < W) :
    ∀ c : Canvas, c.width = W → c.height = H →
      ∃ c', draw_participant_boxes c pl = some c' ∧ c'.width = W ∧ c'.height = H := by
  intro c hw hh
  have h1 : csub pl.center_x ((pl.width + 1) / 2)
      = some (pl.center_x - (pl.width + 1) / 2) := csub_eq_some hhalf
  obtain ⟨c1, h2, hwc1, hhc1⟩ := draw_box_some pl.center_x
    (pl.center_x - (pl.width + 1) / 2 + 1)
    (pl.center_x - (pl.width + 1) / 2 + 1 + pl.width - 1)
    pl.top_box_y pl.name true (by omega) (by omega) hyt hn1 hts hname hc c hw hh
  have h3 : csub pl.bottom_box_y PARTICIPANT_HEIGHT
      = some (pl.bottom_box_y - PARTICIPANT_HEIGHT) := csub_eq_some hbot
  obtain ⟨c2, h4, hwc2, hhc2⟩ := draw_box_some pl.center_x
    (pl.center_x - (pl.width + 1) / 2 + 1)
    (pl.center_x - (pl.width + 1) / 2 + 1 + pl.width - 1)
    (pl.bottom_box_y - PARTICIPANT_HEIGHT) pl.name false (by omega) (by omega)
    hyb hn1 hts hname hc c1 hwc1 hhc1
  refine ⟨c2, ?_, hwc2, hhc2⟩
  simp only [draw_participant_boxes, h1, h2, h3, h4,
    Option.bind_eq_bind, Option.some_bind]

theorem draw_lifeline_some {W H : Nat} (ll : LifelineLayout)
    (hx : ll.x < W) (hs : ll.start_y ≤ H) (he : ll.end_y < H) :
    ∀ c : Canvas, c.width = W → c.height = H →
      ∃ c', draw_lifeline c ll = some c' ∧ c'.width = W ∧ c'.height = H := by
  intro c hw hh
  obtain ⟨c', h, hw', hh'⟩ :=
    vrun_some ll.start_y (ll.end_y + 1 - ll.start_y) ll.x '│' hx (by omega) c hw hh
  exact ⟨c', h, hw', hh'⟩

theorem draw_edge_some {W H : Nat} (el : EdgeLayout)
    (hy1 : el.y + 1 < H)
    (hsW : (normalized el).1 ≤ W)
    (heW : (normalized el).2.1 < W)
    (hax : arrowhead_x el < W)
    (hlbl : ∀ msg, el.message = some msg →
      ∃ msx, message_start_x el msg = some msx ∧ msx + msg.length ≤ W) :
    ∀ c : Canvas, c.width = W → c.height = H →
      ∃ c', draw_edge c el = some c' ∧ c'.width = W ∧ c'.height = H := by
  intro c hw hh
  rcases hm : el.message with _ | msg
  · obtain ⟨c1, h1, hwc1, hhc1⟩ :=
      hrun_some (normalized el).1 ((normalized el).2.1 + 1 - (normalized el).1)
        el.y '─' (by omega) (by omega) c hw hh
    obtain ⟨c2, h2, hwc2, hhc2⟩ :=
      set_char_someW (arrowhead_x el) el.y (normalized el).2.2 hax (by omega) c1 hwc1 hhc1
    refine ⟨c2, ?_, hwc2, hhc2⟩
    simp only [draw_edge, hm, Option.isSome_none, Bool.false_eq_true, if_false,
      h1, h2, Option.bind_eq_bind, Option.some_bind, Option.pure_def]
  · obtain ⟨msx, hmsx, hmb⟩ := hlbl msg hm
    obtain ⟨c1, h1, hwc1, hhc1⟩ :=
      hrun_some (normalized el).1 ((normalized el).2.1 + 1 - (normalized el).1)
        (el.y + 1) '─' (by omega) (by omega) c hw hh
    obtain ⟨c2, h2, hwc2, hhc2⟩ :=
      set_char_someW (arrowhead_x el) (el.y + 1) (normalized el).2.2 hax (by omega) c1 hwc1 hhc1
    obtain ⟨c3, h3, hwc3, hhc3⟩ :=
      @textrun_some W H msx el.y msg (by omega) (Or.inl (by omega)) c2 hwc2 hhc2
    refine ⟨c3, ?_, hwc3, hhc3⟩
    simp only [draw_edge, hm, Option.isSome_some, if_true,
      hmsx, h1, h2, h3, Option.bind_eq_bind, Option.some_bind, Option.pure_def]

end Sequence

namespace Sequence

theorem headD_eq_partIdx (sd : SequenceDiagram) (hne : sd.participants ≠ []) :
    sd.participants.headD "" = partIdx sd 0 := by
  unfold partIdx
  cases hp : sd.participants with
  | nil => exact absurd hp hne
  | cons p rest => rfl

theorem partIdx_mem (sd : SequenceDiagram) (i : Nat) (h : i < sd.participants.length) :
    partIdx sd i ∈ sd.participants := by
  unfold partIdx
  rw [List.getD_eq_getElem?_getD, List.getElem?_eq_getElem h]
  exact List.getElem_mem h

/-- Width is at least two columns beyond the last center. -/
theorem width_ge (sd : SequenceDiagram) (hne : sd.participants ≠ []) :
    posIdx sd (sd.participants.length - 1) + 4 ≤ (calculate_sequence_layout sd).width := by
  rw [width_eq sd hne]
  omega

theorem posIdx_le_last (sd : SequenceDiagram) (i : Nat) (h : i < sd.participants.length) :
    posIdx sd i ≤ posIdx sd (sd.participants.length - 1) :=
  chp_mono sd (sd.participants.length - 1) i (by omega) (by omega)

/-- The participant half-width never exceeds the center column. -/
theorem half_le_center (sd : SequenceDiagram)
    (heven : (sd.participants.headD "").length % 2 = 0) :
    ∀ i, i < sd.participants.length →
      ((partIdx sd i).length + PARTICIPANT_PADDING_X * 2 + BORDER_WIDTH * 2 + 1) / 2
        ≤ posIdx sd i := by
  intro i hi
  have hPP : PARTICIPANT_PADDING_X = 1 := rfl
  have hBW : BORDER_WIDTH = 1 := rfl
  match i with
  | 0 =>
      have hne : sd.participants ≠ [] := by
        intro hnil; rw [hnil] at hi; simp at hi
      have hz := chp_zero sd hne
      rw [headD_eq_partIdx sd hne] at heven
      omega
  | j + 1 =>
      have hcons := chp_consecutive sd j hi
      have hgap := box_gap_le_space sd.edges (partIdx sd j) (partIdx sd (j + 1))
      have hlow := chp_lower sd j (by omega)
      omega

theorem participant_box_ok (sd : SequenceDiagram) (hne : sd.participants ≠ [])
    (hnames : ∀ p ∈ sd.participants, 1 ≤ p.length)
    (heven : (sd.participants.headD "").length % 2 = 0) :
    ∀ pl ∈ (calculate_sequence_layout sd).participant_layouts,
      ∀ c : Canvas, c.width = (calculate_sequence_layout sd).width →
        c.height = (calculate_sequence_layout sd).height →
        ∃ c', draw_participant_boxes c pl = some c'
          ∧ c'.width = (calculate_sequence_layout sd).width
          ∧ c'.height = (calculate_sequence_layout sd).height := by
  intro pl hpl
  obtain ⟨i, hilt, hig⟩ := List.mem_iff_getElem.mp hpl
  have hlen := participant_layouts_length sd
  have hin : i < sd.participants.length := by omega
  have hval := participant_layouts_getElem? sd i hin
  have hplv : pl = ⟨partIdx sd i, posIdx sd i, MARGIN_TOP,
      (calculate_sequence_layout sd).height - MARGIN_BOTTOM,
      (partIdx sd i).length + PARTICIPANT_PADDING_X * 2 + BORDER_WIDTH * 2⟩ := by
    have hsome := List.getElem?_eq_getElem hilt
    rw [hval] at hsome
    have hv := Option.some_injective _ hsome.symm
    rw [hig] at hv
    exact hv
  have hcen : pl.center_x = posIdx sd i := by rw [hplv]
  have hwid : pl.width
      = (partIdx sd i).length + PARTICIPANT_PADDING_X * 2 + BORDER_WIDTH * 2 := by rw [hplv]
  have hnam : pl.name = partIdx sd i := by rw [hplv]
  have htop : pl.top_box_y = MARGIN_TOP := by rw [hplv]
  have hbotf : pl.bottom_box_y
      = (calculate_sequence_layout sd).height - MARGIN_BOTTOM := by rw [hplv]
  have hPP : PARTICIPANT_PADDING_X = 1 := rfl
  have hBW : BORDER_WIDTH = 1 := rfl
  have hMT : MARGIN_TOP = 1 := rfl
  have hMB : MARGIN_BOTTOM = 1 := rfl
  have hPH : PARTICIPANT_HEIGHT = 3 := rfl
  have hH9 := height_ge_nine sd
  have hWge := width_ge sd hne
  have hlast := posIdx_le_last sd i hin
  have hlow := chp_lower sd i hin
  have hhalf := half_le_center sd heven i hin
  have hn1 : 1 ≤ (partIdx sd i).length := hnames _ (partIdx_mem sd i hin)
  have hWtop : posIdx sd i + (partIdx sd i).length / 2 + 2
      < (calculate_sequence_layout sd).width := by
    rcases Nat.lt_or_ge i (sd.participants.length - 1) with hilast | hilast
    · have hpair := chp_pair_gap sd (sd.participants.length - 1) i hilast (by omega)
      omega
    · have hieq : i = sd.participants.length - 1 := by omega
      subst hieq
      rw [width_eq sd hne]
      omega
  refine draw_participant_boxes_some pl (by rw [hcen, hwid]; omega)
    (by rw [hwid]; omega) (by rw [hcen, hwid]; omega) (by rw [htop]; omega)
    (by rw [hbotf]; omega) (by rw [hbotf]; omega) (by rw [hnam]; omega)
    (by rw [hnam, hcen]; omega) (by rw [hnam, hcen]; omega) (by rw [hcen]; omega)

theorem lifeline_ok (sd : SequenceDiagram) (hne : sd.participants ≠ []) :
    ∀ ll ∈ (calculate_sequence_layout sd).lifeline_layouts,
      ∀ c : Canvas, c.width = (calculate_sequence_layout sd).width →
        c.height = (calculate_sequence_layout sd).height →
        ∃ c', draw_lifeline c ll = some c'
          ∧ c'.width = (calculate_sequence_layout sd).width
          ∧ c'.height = (calculate_sequence_layout sd).height := by
  intro ll hll
  have hll' : ll ∈ calculate_lifeline_layouts (calculate_sequence_layout sd).height
      (calculate_horizontal_positions sd) := hll
  unfold calculate_lifeline_layouts at hll'
  obtain ⟨pos, hpos, hlleq⟩ := List.mem_map.mp hll'
  obtain ⟨i, hilt, hig⟩ := List.mem_iff_getElem.mp hpos
  have hin : i < sd.participants.length := by
    have := chp_length sd
    omega
  have hposi : pos = posIdx sd i := by
    unfold posIdx
    rw [List.getD_eq_getElem?_getD, List.getElem?_eq_getElem hilt, hig]
    rfl
  have hH9 := height_ge_nine sd
  have hWge := width_ge sd hne
  have hlast := posIdx_le_last sd i hin
  have hMB : MARGIN_BOTTOM = 1 := rfl
  have hMT : MARGIN_TOP = 1 := rfl
  have hPH : PARTICIPANT_HEIGHT = 3 := rfl
  have hES : EDGE_SPACING = 1 := rfl
  subst hlleq
  exact draw_lifeline_some _ (by simp only; omega) (by simp only; omega) (by simp only; omega)

theorem edge_ok (sd : SequenceDiagram) (hne : sd.participants ≠ [])
    (hwf : ∀ e ∈ sd.edges, e.src ∈ sd.participants ∧ e.dst ∈ sd.participants)
    (hadj : ∀ e ∈ sd.edges, e.message.isSome →
        sd.participants.indexOf e.src + 1 = sd.participants.indexOf e.dst
        ∨ sd.participants.indexOf e.dst + 1 = sd.participants.indexOf e.src) :
    ∀ el ∈ (calculate_sequence_layout sd).edge_layouts,
      ∀ c : Canvas, c.width = (calculate_sequence_layout sd).width →
        c.height = (calculate_sequence_layout sd).height →
        ∃ c', draw_edge c el = some c'
          ∧ c'.width = (calculate_sequence_layout sd).width
          ∧ c'.height = (calculate_sequence_layout sd).height := by
  intro el hel
  have hel' : el ∈ edge_layouts_go sd (calculate_horizontal_positions sd)
      sd.edges (MARGIN_TOP + PARTICIPANT_HEIGHT + EDGE_SPACING) := hel
  obtain ⟨e, he, hmsge, hylo, hyhi, hdir⟩ := mem_edge_layouts_go hel'
  have hH := height_eq sd
  have hMT : MARGIN_TOP = 1 := rfl
  have hPH : PARTICIPANT_HEIGHT = 3 := rfl
  have hES : EDGE_SPACING = 1 := rfl
  have hWge := width_ge sd hne
  have hsrc := (hwf e he).1
  have hdst := (hwf e he).2
  have hia : sd.participants.indexOf e.src < sd.participants.length :=
    indexOf_lt _ _ hsrc
  have hib : sd.participants.indexOf e.dst < sd.participants.length :=
    indexOf_lt _ _ hdst
  have hlasta := posIdx_le_last sd _ hia
  have hlastb := posIdx_le_last sd _ hib
  have hlowa := chp_lower sd _ hia
  have hlowb := chp_lower sd _ hib
  have hy1 : el.y + 1 < (calculate_sequence_layout sd).height := by
    split at hyhi <;> omega
  have hlbl : ∀ msg, el.message = some msg →
      ∃ msx, message_start_x el msg = some msx
        ∧ msx + msg.length ≤ (calculate_sequence_layout sd).width := by
    intro msg hm
    obtain ⟨msx, hmsx, _, hend⟩ := label_msx sd hwf hadj el hel msg hm
    refine ⟨msx, hmsx, ?_⟩
    rcases hdir with ⟨hlt, hdirR, hsx, hex⟩ | ⟨hnlt, hdirL, hsx, hex⟩
    · have hnorm : normalized el = (el.start_x, el.end_x, '>') := by
        unfold normalized
        rw [hdirR]
      rw [hnorm] at hend
      simp only at hend
      have hex' : el.end_x = posIdx sd (sd.participants.indexOf e.dst) - 1 := hex
      omega
    · have hnorm : normalized el = (el.end_x, el.start_x, '<') := by
        unfold normalized
        rw [hdirL]
      rw [hnorm] at hend
      simp only at hend
      have hsx' : el.start_x = posIdx sd (sd.participants.indexOf e.src) - 1 := hsx
      omega
  rcases hdir with ⟨hlt, hdirR, hsx, hex⟩ | ⟨hnlt, hdirL, hsx, hex⟩
  · have hnorm : normalized el = (el.start_x, el.end_x, '>') := by
      unfold normalized
      rw [hdirR]
    have hax : arrowhead_x el = el.end_x := by
      unfold arrowhead_x
      rw [hdirR, hnorm]
    have hsx' : el.start_x = posIdx sd (sd.participants.indexOf e.src) + 1 := hsx
    have hex' : el.end_x = posIdx sd (sd.participants.indexOf e.dst) - 1 := hex
    refine draw_edge_some el hy1 ?_ ?_ ?_ hlbl
    · rw [hnorm]; simp only; omega
    · rw [hnorm]; simp only; omega
    · rw [hax]; omega
  · have hnorm : normalized el = (el.end_x, el.start_x, '<') := by
      unfold normalized
      rw [hdirL]
    have hax : arrowhead_x el = el.end_x := by
      unfold arrowhead_x
      rw [hdirL, hnorm]
    have hsx' : el.start_x = posIdx sd (sd.participants.indexOf e.src) - 1 := hsx
    have hex' : el.end_x = posIdx sd (sd.participants.indexOf e.dst) + 1 := hex
    refine draw_edge_some el hy1 ?_ ?_ ?_ hlbl
    · rw [hnorm]; simp only; omega
    · rw [hnorm]; simp only; omega
    · rw [hax]; omega

end Sequence

/-- C6 (amended): rendering writes every coordinate in bounds — and so
succeeds — for every diagram whose edge endpoints are listed participants,
whose participant names are nonempty (with an even-width first name), and
whose *labeled* edges join adjacent participants.  A labeled edge between
non-adjacent participants is not budgeted by the greedy adjacent-pair
spacing and can hit the fatal Canvas out-of-bounds failure (see the
counterexample). -/
theorem sequence_render_in_bounds (sd : Sequence.SequenceDiagram)
    (hgood : Sequence.GoodDiagram sd) :
    ∃ s, Sequence.render (Sequence.calculate_sequence_layout sd) = some s := by
  obtain ⟨hwf, hnames, heven, hadj⟩ := hgood
  by_cases hne : sd.participants = []
  · have hedges : sd.edges = [] := by
      cases hl : sd.edges with
      | nil => rfl
      | cons e rest =>
          exfalso
          have hmem := (hwf e (by rw [hl]; exact List.mem_cons_self e rest)).1
          rw [hne] at hmem
          cases hmem
    have h1 : (Sequence.calculate_sequence_layout sd).participant_layouts = [] := by
      show Sequence.calculate_participant_layouts _ sd _ = []
      unfold Sequence.calculate_participant_layouts
      rw [hne]
      rfl
    have h2 : (Sequence.calculate_sequence_layout sd).lifeline_layouts = [] := by
      show Sequence.calculate_lifeline_layouts _ (Sequence.calculate_horizontal_positions sd) = []
      unfold Sequence.calculate_lifeline_layouts Sequence.calculate_horizontal_positions
      rw [hne]
      rfl
    have h3 : (Sequence.calculate_sequence_layout sd).edge_layouts = [] := by
      show Sequence.edge_layouts_go sd _ sd.edges _ = []
      rw [hedges]
      rfl
    refine ⟨(Canvas.new (Sequence.calculate_sequence_layout sd).width
        (Sequence.calculate_sequence_layout sd).height).to_string, ?_⟩
    simp only [Sequence.render, h1, h2, h3, List.foldlM_nil,
      Option.bind_eq_bind, Option.some_bind, Option.pure_def]
  · obtain ⟨c1, hf1, hw1, hh1⟩ :=
      foldlM_dims (Sequence.participant_box_ok sd hne hnames heven)
        (Canvas.new (Sequence.calculate_sequence_layout sd).width
          (Sequence.calculate_sequence_layout sd).height) rfl rfl
    obtain ⟨c2, hf2, hw2, hh2⟩ :=
      foldlM_dims (Sequence.lifeline_ok sd hne) c1 hw1 hh1
    obtain ⟨c3, hf3, hw3, hh3⟩ :=
      foldlM_dims (Sequence.edge_ok sd hne hwf hadj) c2 hw2 hh2
    refine ⟨c3.to_string, ?_⟩
    simp only [Sequence.render, hf1, hf2, hf3,
      Option.bind_eq_bind, Option.some_bind, Option.pure_def]

/-- Witness for C6 on the Client/Server demo diagram. -/
theorem sequence_render_in_bounds_witness :
    Sequence.GoodDiagram Sequence.demo_diagram
    ∧ ∃ s, Sequence.render (Sequence.calculate_sequence_layout Sequence.demo_diagram)
        = some s :=
  ⟨by constructor
      · decide
      · exact ⟨by decide, by decide, by decide⟩,
    sequence_render_in_bounds Sequence.demo_diagram
      ⟨by decide, by decide, by decide, by decide⟩⟩

/-! ## DAG layering: counting groundwork -/

namespace DAG

theorem cnt_nil (v : String) : cnt [] v = 0 := rfl

theorem cnt_cons (t : String) (ts : List String) (v : String) :
    cnt (t :: ts) v = if t = v then cnt ts v + 1 else cnt ts v := by
  simp only [cnt, List.filter_cons]
  split <;> simp_all

theorem cnt_append (a b : List String) (v : String) :
    cnt (a ++ b) v = cnt a v + cnt b v := by
  simp [cnt, List.filter_append]

theorem cnt_pos_mem {ts : List String} {v : String} (h : 0 < cnt ts v) : v ∈ ts := by
  induction ts with
  | nil => simp [cnt] at h
  | cons t rest ih =>
      rw [cnt_cons] at h
      by_cases ht : t = v
      · rw [ht]; exact List.mem_cons_self v rest
      · rw [if_neg ht] at h
        exact List.mem_cons_of_mem t (ih h)

/-- Successor multiplicity: counting `v` among the adjacency list of `q`
counts the `q → v` edges. -/
theorem adj_cnt (l : List GEdge) (q v : String) :
    cnt ((l.filter (fun e => e.src = q)).map (fun e => e.dst)) v
      = (l.filter (fun e => e.dst = v ∧ e.src = q)).length := by
  induction l with
  | nil => rfl
  | cons e rest ih =>
      by_cases hsq : e.src = q <;> by_cases hdv : e.dst = v <;>
        simp [List.filter_cons, cnt_cons, hsq, hdv, ih]

end DAG

namespace DAG

theorem filterlen_cons_src (l : List GEdge) (v q : String) (rest : List String)
    (hq : q ∉ rest) :
    (l.filter (fun e => e.dst = v ∧ e.src ∈ q :: rest)).length
      = (l.filter (fun e => e.dst = v ∧ e.src = q)).length
        + (l.filter (fun e => e.dst = v ∧ e.src ∈ rest)).length := by
  induction l with
  | nil => rfl
  | cons e tl ih =>
      by_cases hdv : e.dst = v
      · by_cases hsq : e.src = q
        · have hnr : e.src ∉ rest := by rw [hsq]; exact hq
          simp [List.filter_cons, hdv, hsq, hnr, hq] at ih ⊢
          omega
        · by_cases hsr : e.src ∈ rest
          · simp [List.filter_cons, hdv, hsq, hsr, hq] at ih ⊢
            omega
          · simp [List.filter_cons, hdv, hsq, hsr, hq] at ih ⊢
            omega
      · simp [List.filter_cons, hdv] at ih ⊢
        omega

theorem inFrom_cons (g : Graph) (v q : String) (rest : List String) (hq : q ∉ rest) :
    inFrom g (q :: rest) v
      = (g.edges.filter (fun e => e.dst = v ∧ e.src = q)).length + inFrom g rest v :=
  filterlen_cons_src g.edges v q rest hq

theorem inFrom_nil (g : Graph) (v : String) : inFrom g [] v = 0 := by
  unfold inFrom
  rw [List.filter_eq_nil_iff.mpr]
  · rfl
  · intro e _
    simp

theorem inFrom_append (g : Graph) (v : String) (s1 s2 : List String)
    (hnd : (s1 ++ s2).Nodup) :
    inFrom g (s1 ++ s2) v = inFrom g s1 v + inFrom g s2 v := by
  induction s1 with
  | nil => simp [inFrom_nil]
  | cons q s1' ih =>
      have hq2 : q ∉ s1' ++ s2 := (List.nodup_cons.mp hnd).1
      have hnd' : (s1' ++ s2).Nodup := (List.nodup_cons.mp hnd).2
      have hq1 : q ∉ s1' := fun h => hq2 (List.mem_append_left _ h)
      rw [show (q :: s1') ++ s2 = q :: (s1' ++ s2) from rfl]
      rw [inFrom_cons g v q (s1' ++ s2) hq2, inFrom_cons g v q s1' hq1, ih hnd']
      omega

theorem filterlen_le_list (l : List GEdge) (s : List String) (v : String) :
    (l.filter (fun e => e.dst = v ∧ e.src ∈ s)).length
      ≤ (l.filter (fun e => e.dst = v)).length := by
  induction l with
  | nil => exact le_rfl
  | cons e tl ih =>
      simp only [Bool.decide_and] at ih ⊢
      by_cases hdv : e.dst = v <;> by_cases hsm : e.src ∈ s <;>
        simp [List.filter_cons, hdv, hsm] <;> omega

theorem inFrom_le (g : Graph) (s : List String) (v : String) :
    inFrom g s v ≤ in_degree0 g v :=
  filterlen_le_list g.edges s v

theorem all_src_of_filterlen_eq (l : List GEdge) (s : List String) (v : String) :
    (l.filter (fun e => e.dst = v ∧ e.src ∈ s)).length
        = (l.filter (fun e => e.dst = v)).length →
    ∀ e ∈ l, e.dst = v → e.src ∈ s := by
  induction l with
  | nil => intro _ e he; cases he
  | cons e tl ih =>
      intro h e' he' hdv'
      have hle := filterlen_le_list tl s v
      simp only [Bool.decide_and] at h hle
      rcases List.mem_cons.mp he' with rfl | htl
      · by_contra hns
        simp [List.filter_cons, hdv', hns] at h
        omega
      · refine ih ?_ e' htl hdv'
        simp only [Bool.decide_and]
        by_cases hdv : e.dst = v
        · by_cases hsm : e.src ∈ s
          · simp [List.filter_cons, hdv, hsm] at h
            omega
          · simp [List.filter_cons, hdv, hsm] at h
            omega
        · simp [List.filter_cons, hdv] at h
          omega

theorem all_src_of_inFrom_eq (g : Graph) (s : List String) (v : String)
    (h : inFrom g s v = in_degree0 g v) :
    ∀ e ∈ g.edges, e.dst = v → e.src ∈ s :=
  all_src_of_filterlen_eq g.edges s v h

theorem exists_src_notin_of_lt (g : Graph) (s : List String) (v : String)
    (h : inFrom g s v < in_degree0 g v) :
    ∃ e ∈ g.edges, e.dst = v ∧ e.src ∉ s := by
  by_contra hno
  push_neg at hno
  have : inFrom g s v = in_degree0 g v := by
    unfold inFrom in_degree0
    congr 1
    apply List.filter_congr
    intro e he
    by_cases hdv : e.dst = v
    · simp [hdv, hno e he hdv]
    · simp [hdv]
  omega

theorem exists_edge_of_inFrom_pos (g : Graph) (s : List String) (v : String)
    (h : 0 < inFrom g s v) :
    ∃ e ∈ g.edges, e.dst = v ∧ e.src ∈ s := by
  unfold inFrom at h
  have hne : g.edges.filter (fun e => e.dst = v ∧ e.src ∈ s) ≠ [] := by
    intro hnil
    rw [hnil] at h
    simp at h
  obtain ⟨e, he⟩ := List.exists_mem_of_ne_nil _ hne
  have hm := List.mem_filter.mp he
  refine ⟨e, hm.1, ?_⟩
  simpa using hm.2

end DAG

namespace DAG

/-- Draining a duplicate-free frontier produces each node `v` as a successor
exactly `inFrom g queue v` times. -/
theorem cnt_join_adj (g : Graph) :
    ∀ (queue : List String), queue.Nodup →
      ∀ v, cnt ((queue.map (build_adjacency_graph g)).join) v = inFrom g queue v := by
  intro queue
  induction queue with
  | nil =>
      intro _ v
      simp [cnt, inFrom_nil]
  | cons q rest ih =>
      intro hnd v
      have hq : q ∉ rest := (List.nodup_cons.mp hnd).1
      have hj : ((q :: rest).map (build_adjacency_graph g)).join
          = build_adjacency_graph g q ++ (rest.map (build_adjacency_graph g)).join := by
        simp [List.join]
      rw [hj, cnt_append,
        ih (List.nodup_cons.mp hnd).2 v, inFrom_cons g v q rest hq]
      unfold build_adjacency_graph
      rw [adj_cnt]

/-- The inner decrement fold of one layer: in-degrees drop by the pending
multiplicities and the nodes pushed are exactly those whose degree reaches
zero, each pushed once. -/
theorem kahn_fold_spec :
    ∀ (ts : List String) (degs : String → Nat) (q0 : List String),
      (∀ v, cnt ts v ≤ degs v) →
      (∀ v, (ts.foldl kahn_process_target (degs, q0)).1 v = degs v - cnt ts v)
      ∧ ∃ zs, (ts.foldl kahn_process_target (degs, q0)).2 = q0 ++ zs
          ∧ zs.Nodup
          ∧ (∀ v, v ∈ zs ↔ (0 < degs v ∧ cnt ts v = degs v)) := by
  intro ts
  induction ts with
  | nil =>
      intro degs q0 _
      refine ⟨fun v => by simp [cnt_nil], [], by simp, List.nodup_nil, ?_⟩
      intro v
      simp [cnt_nil]
      omega
  | cons t ts' ih =>
      intro degs q0 hpre
      have hd1 : 1 ≤ degs t := by
        have := hpre t
        rw [cnt_cons] at this
        simp at this
        omega
      have hstep : (t :: ts').foldl kahn_process_target (degs, q0)
          = ts'.foldl kahn_process_target
            (Function.update degs t (degs t - 1),
             if degs t - 1 = 0 then q0 ++ [t] else q0) := by
        rw [List.foldl_cons]
        rfl
      have hpre' : ∀ v, cnt ts' v ≤ Function.update degs t (degs t - 1) v := by
        intro v
        by_cases hvt : v = t
        · subst hvt
          have := hpre v
          rw [cnt_cons, if_pos rfl] at this
          rw [Function.update_same]
          omega
        · have := hpre v
          rw [cnt_cons, if_neg (fun h => hvt h.symm)] at this
          rw [Function.update_noteq hvt]
          exact this
      obtain ⟨hdegs, zs', hq', hnd', hmem'⟩ :=
        ih (Function.update degs t (degs t - 1))
          (if degs t - 1 = 0 then q0 ++ [t] else q0) hpre'
      constructor
      · intro v
        rw [hstep, hdegs v]
        by_cases hvt : v = t
        · subst hvt
          rw [Function.update_same, cnt_cons, if_pos rfl]
          omega
        · rw [Function.update_noteq hvt, cnt_cons, if_neg (fun h => hvt h.symm)]
      · refine ⟨(if degs t - 1 = 0 then [t] else []) ++ zs', ?_, ?_, ?_⟩
        · by_cases hz : degs t - 1 = 0
          · rw [hstep, hq', if_pos hz, if_pos hz]
            simp
          · rw [hstep, hq', if_neg hz, if_neg hz]
            simp
        · by_cases hz : degs t - 1 = 0
          · rw [if_pos hz]
            have htz : t ∉ zs' := by
              intro hmem
              have := (hmem' t).mp hmem
              rw [Function.update_same] at this
              omega
            simpa using ⟨htz, hnd'⟩
          · rw [if_neg hz]
            simpa using hnd'
        · intro v
          by_cases hvt : v = t
          · subst hvt
            have hmt := hmem' v
            rw [Function.update_same] at hmt
            have hcnt := hpre v
            rw [cnt_cons, if_pos rfl] at hcnt ⊢
            constructor
            · intro hv
              rcases List.mem_append.mp hv with hl | hr
              · by_cases hz : degs v - 1 = 0
                · have h0 := hpre' v
                  rw [Function.update_same] at h0
                  omega
                · rw [if_neg hz] at hl
                  simp at hl
              · have := hmt.mp hr
                have hc' : cnt ts' v = degs v - 1 := this.2
                omega
            · intro ⟨hpos, hceq⟩
              by_cases hz : degs v - 1 = 0
              · refine List.mem_append.mpr (Or.inl ?_)
                rw [if_pos hz]
                exact List.mem_singleton.mpr rfl
              · refine List.mem_append.mpr (Or.inr ?_)
                refine hmt.mpr ⟨by omega, by omega⟩
          · have hmt := hmem' v
            rw [Function.update_noteq hvt] at hmt
            have hcnt_eq : cnt (t :: ts') v = cnt ts' v := by
              rw [cnt_cons, if_neg (fun h => hvt h.symm)]
            rw [hcnt_eq]
            constructor
            · intro hv
              rcases List.mem_append.mp hv with hl | hr
              · exfalso
                by_cases hz : degs t - 1 = 0
                · rw [if_pos hz] at hl
                  exact hvt (List.mem_singleton.mp hl)
                · rw [if_neg hz] at hl
                  simp at hl
              · exact hmt.mp hr
            · intro hvv
              exact List.mem_append.mpr (Or.inr (hmt.mpr hvv))

end DAG

namespace DAG

/-- If a node has positive initial in-degree, some listed edge targets it. -/
theorem exists_edge_dst_of_in_degree0_pos (g : Graph) (v : String)
    (h : 0 < in_degree0 g v) : ∃ e ∈ g.edges, e.dst = v := by
  unfold in_degree0 at h
  have hne : g.edges.filter (fun e => e.dst = v) ≠ [] := by
    intro hnil
    rw [hnil] at h
    simp at h
  obtain ⟨e, he⟩ := List.exists_mem_of_ne_nil _ hne
  have hm := List.mem_filter.mp he
  refine ⟨e, hm.1, ?_⟩
  simpa using hm.2

/-- A node is a key of the rank list exactly when it is ranked at some rank. -/
theorem mem_keys_iff (ranks : List (String × Nat)) (v : String) :
    v ∈ ranks.map Prod.fst ↔ ∃ r, (v, r) ∈ ranks := by
  constructor
  · intro h
    obtain ⟨⟨x, r⟩, hp, hfst⟩ := List.mem_map.mp h
    refine ⟨r, ?_⟩
    simp only at hfst
    rw [← hfst]
    exact hp
  · rintro ⟨r, hr⟩
    exact List.mem_map.mpr ⟨(v, r), hr, rfl⟩

/-- With duplicate-free keys, each node carries at most one rank. -/
theorem rank_unique : ∀ (ranks : List (String × Nat)),
    (ranks.map Prod.fst).Nodup →
    ∀ (v : String) (a b : Nat), (v, a) ∈ ranks → (v, b) ∈ ranks → a = b := by
  intro ranks
  induction ranks with
  | nil => intro _ v a b ha _; cases ha
  | cons p rest ih =>
      intro hnd v a b ha hb
      rw [List.map_cons, List.nodup_cons] at hnd
      rcases List.mem_cons.mp ha with hpa | ha'
      · rcases List.mem_cons.mp hb with hpb | hb'
        · rw [← hpa] at hpb
          exact (congrArg Prod.snd hpb).symm
        · exfalso
          apply hnd.1
          rw [← hpa]
          exact List.mem_map.mpr ⟨(v, b), hb', rfl⟩
      · rcases List.mem_cons.mp hb with hpb | hb'
        · exfalso
          apply hnd.1
          rw [← hpb]
          exact List.mem_map.mpr ⟨(v, a), ha', rfl⟩
        · exact ih hnd.2 v a b ha' hb'

/-- One drain of a duplicate-free frontier: every in-degree drops by the
number of in-edges from the frontier, and the next frontier collects (once
each, in push order) exactly the nodes whose positive in-degree is fully
consumed. -/
theorem kahn_layer_spec (g : Graph) (in_degrees : String → Nat)
    (queue : List String) (hnd : queue.Nodup)
    (hle : ∀ v, inFrom g queue v ≤ in_degrees v) :
    (∀ v, (kahn_layer (build_adjacency_graph g) in_degrees queue).1 v
        = in_degrees v - inFrom g queue v)
    ∧ (kahn_layer (build_adjacency_graph g) in_degrees queue).2.Nodup
    ∧ (∀ v, v ∈ (kahn_layer (build_adjacency_graph g) in_degrees queue).2
        ↔ (0 < in_degrees v ∧ inFrom g queue v = in_degrees v)) := by
  have hc := cnt_join_adj g queue hnd
  have hpre : ∀ v, cnt ((queue.map (build_adjacency_graph g)).join) v ≤ in_degrees v := by
    intro v
    rw [hc v]
    exact hle v
  obtain ⟨h1, zs, hz, hznd, hzm⟩ :=
    kahn_fold_spec ((queue.map (build_adjacency_graph g)).join) in_degrees [] hpre
  unfold kahn_layer
  refine ⟨fun v => by rw [h1 v, hc v], ?_, ?_⟩
  · rw [hz]
    simpa using hznd
  · intro v
    rw [hz]
    simp only [List.nil_append]
    rw [hzm v, hc v]

end DAG

namespace DAG

/-- Executing one non-trivial layer of the loop preserves the invariant:
the drained frontier joins the ranked keys at the current rank, and the
freshly zeroed nodes form the next frontier. -/
theorem kahnInv_step (g : Graph) (degs : String → Nat) (queue : List String)
    (r : Nat) (ranks : List (String × Nat)) (hwf : WellFormed g)
    (inv : KahnInv g degs queue r ranks) :
    KahnInv g (kahn_layer (build_adjacency_graph g) degs queue).1
      (kahn_layer (build_adjacency_graph g) degs queue).2 (r + 1)
      (ranks ++ queue.map (fun node => (node, r))) := by
  have hkeys' : (ranks ++ queue.map (fun node => (node, r))).map Prod.fst
      = ranks.map Prod.fst ++ queue := by
    simp [Function.comp_def]
  have hdisj : ∀ a ∈ ranks.map Prod.fst, a ∉ queue := by
    intro a ha hq
    exact ((inv.queue_char a).mp hq).2.2 ha
  have hndkq : (ranks.map Prod.fst ++ queue).Nodup :=
    List.Nodup.append inv.keys_nodup inv.queue_nodup hdisj
  have hle : ∀ v, inFrom g queue v ≤ degs v := by
    intro v
    have h1 := inv.degs_eq v
    have h2 : inFrom g (ranks.map Prod.fst ++ queue) v ≤ in_degree0 g v :=
      inFrom_le g _ v
    rw [inFrom_append g v _ _ hndkq] at h2
    omega
  obtain ⟨hdegs, hnext_nd, hnext_mem⟩ :=
    kahn_layer_spec g degs queue inv.queue_nodup hle
  refine ⟨?_, ?_, ?_, hnext_nd, ?_, ?_, ?_, ?_⟩
  · rw [hkeys']
    exact hndkq
  · rw [hkeys']
    intro v hv
    rcases List.mem_append.mp hv with hk | hq
    · exact inv.keys_sub v hk
    · exact ((inv.queue_char v).mp hq).1
  · rw [hkeys']
    intro v hv
    rw [hdegs v]
    rcases List.mem_append.mp hv with hk | hq
    · have := inv.keys_deg v hk
      omega
    · have := ((inv.queue_char v).mp hq).2.1
      omega
  · intro v
    rw [hnext_mem v, hkeys']
    constructor
    · rintro ⟨hpos, heq⟩
      refine ⟨?_, ?_, ?_⟩
      · have h0 : 0 < in_degree0 g v := by
          have := inv.degs_eq v
          omega
        obtain ⟨e, he, hdst⟩ := exists_edge_dst_of_in_degree0_pos g v h0
        have := (hwf e he).2
        rwa [hdst] at this
      · rw [hdegs v]
        omega
      · intro hmem
        rcases List.mem_append.mp hmem with hk | hq
        · have := inv.keys_deg v hk
          omega
        · have := ((inv.queue_char v).mp hq).2.1
          omega
    · rintro ⟨hnodes, hdeg0, hnmem⟩
      rw [hdegs v] at hdeg0
      have hnk : v ∉ ranks.map Prod.fst := fun h =>
        hnmem (List.mem_append.mpr (Or.inl h))
      have hnq : v ∉ queue := fun h =>
        hnmem (List.mem_append.mpr (Or.inr h))
      have hpos : 0 < degs v := by
        by_contra hdz
        push_neg at hdz
        exact hnq ((inv.queue_char v).mpr ⟨hnodes, by omega, hnk⟩)
      have hlv := hle v
      exact ⟨hpos, by omega⟩
  · intro v
    rw [hkeys', hdegs v, inFrom_append g v _ _ hndkq]
    have h1 := inv.degs_eq v
    have h2 := hle v
    omega
  · intro p hp
    rcases List.mem_append.mp hp with h | h
    · exact Nat.lt_succ_of_lt (inv.ranks_lt p h)
    · obtain ⟨n, hn, hpe⟩ := List.mem_map.mp h
      rw [← hpe]
      exact Nat.lt_succ_self r
  · intro e he rv hrv
    rcases List.mem_append.mp hrv with hold | hnewm
    · obtain ⟨ru, hru, hlt⟩ := inv.ranks_edge e he rv hold
      exact ⟨ru, List.mem_append.mpr (Or.inl hru), hlt⟩
    · obtain ⟨n, hn, hpe⟩ := List.mem_map.mp hnewm
      have h1 : n = e.dst := congrArg Prod.fst hpe
      have h2 : r = rv := congrArg Prod.snd hpe
      have hq := (inv.queue_char e.dst).mp (h1 ▸ hn)
      have hfull : inFrom g (ranks.map Prod.fst) e.dst = in_degree0 g e.dst := by
        have h3 := inv.degs_eq e.dst
        have h4 := hq.2.1
        omega
      have hsrc : e.src ∈ ranks.map Prod.fst :=
        all_src_of_inFrom_eq g _ e.dst hfull e he rfl
      obtain ⟨ru, hru⟩ := (mem_keys_iff ranks e.src).mp hsrc
      refine ⟨ru, List.mem_append.mpr (Or.inl hru), ?_⟩
      have := inv.ranks_lt (e.src, ru) hru
      omega

end DAG

namespace DAG

/-- When the frontier is empty the invariant already yields the loop's
postcondition: every still-unranked node keeps an in-edge from another
unranked node. -/
theorem kahnPost_of_empty (g : Graph) (degs : String → Nat) (r : Nat)
    (ranks : List (String × Nat)) (hwf : WellFormed g)
    (inv : KahnInv g degs ([] : List String) r ranks) : KahnPost g ranks := by
  refine ⟨inv.keys_nodup, inv.keys_sub, inv.ranks_edge, ?_⟩
  intro v hv hnk
  have hdpos : degs v ≠ 0 := by
    intro h0
    exact List.not_mem_nil v ((inv.queue_char v).mpr ⟨hv, h0, hnk⟩)
  have hdeq := inv.degs_eq v
  have hlt : inFrom g (ranks.map Prod.fst) v < in_degree0 g v := by omega
  obtain ⟨e, he, hdst, hsrc⟩ := exists_src_notin_of_lt g _ v hlt
  exact ⟨e, he, hdst, (hwf e he).1, hsrc⟩

/-- The fuelled loop reaches the postcondition from any invariant state,
as long as the fuel covers the still-unranked nodes (each executed layer
ranks at least one new node). -/
theorem kahnLoop_post (g : Graph) (hnd : g.nodes.Nodup) (hwf : WellFormed g) :
    ∀ (fuel : Nat) (degs : String → Nat) (queue : List String) (r : Nat)
      (ranks : List (String × Nat)),
      KahnInv g degs queue r ranks →
      g.nodes.length ≤ fuel + (ranks.map Prod.fst).length →
      KahnPost g (kahnLoop (build_adjacency_graph g) fuel degs queue r ranks) := by
  intro fuel
  induction fuel with
  | zero =>
      intro degs queue r ranks inv hlen
      have hsubf : (ranks.map Prod.fst).toFinset ⊆ g.nodes.toFinset := by
        intro v hv
        exact List.mem_toFinset.mpr (inv.keys_sub v (List.mem_toFinset.mp hv))
      have hc1 : (ranks.map Prod.fst).toFinset.card = (ranks.map Prod.fst).length :=
        List.toFinset_card_of_nodup inv.keys_nodup
      have hc2 : g.nodes.toFinset.card = g.nodes.length :=
        List.toFinset_card_of_nodup hnd
      have heqf : (ranks.map Prod.fst).toFinset = g.nodes.toFinset := by
        apply Finset.eq_of_subset_of_card_le hsubf
        omega
      have hall : ∀ v ∈ g.nodes, v ∈ ranks.map Prod.fst := by
        intro v hv
        have : v ∈ (ranks.map Prod.fst).toFinset := by
          rw [heqf]
          exact List.mem_toFinset.mpr hv
        exact List.mem_toFinset.mp this
      have hqe : queue = [] := by
        rw [List.eq_nil_iff_forall_not_mem]
        intro v hv
        have h := (inv.queue_char v).mp hv
        exact h.2.2 (hall v h.1)
      subst hqe
      exact kahnPost_of_empty g degs r ranks hwf inv
  | succ fuel ih =>
      intro degs queue r ranks inv hlen
      by_cases hq : queue = []
      · subst hq
        simp only [kahnLoop, if_pos rfl]
        exact kahnPost_of_empty g degs r ranks hwf inv
      · simp only [kahnLoop, if_neg hq]
        apply ih _ _ _ _ (kahnInv_step g degs queue r ranks hwf inv)
        have hql : 1 ≤ queue.length := List.length_pos.mpr hq
        simp only [List.length_map] at hlen
        simp only [List.map_append, List.map_map, List.length_append, List.length_map]
        omega

/-- `assign_ranks` lands in the loop postcondition for every well-formed
graph with duplicate-free nodes. -/
theorem assign_ranks_post (g : Graph) (hnd : g.nodes.Nodup)
    (hwf : WellFormed g) : KahnPost g (assign_ranks g) := by
  show KahnPost g (kahnLoop (build_adjacency_graph g) g.nodes.length
    (in_degree0 g) (g.nodes.filter (fun node => in_degree0 g node = 0)) 0 [])
  apply kahnLoop_post g hnd hwf
  · refine ⟨?_, ?_, ?_, ?_, ?_, ?_, ?_, ?_⟩
    · simp
    · intro v hv
      simp at hv
    · intro v hv
      simp at hv
    · exact hnd.filter _
    · intro v
      simp [List.mem_filter]
    · intro v
      simp [inFrom_nil]
    · intro p hp
      cases hp
    · intro e _ rv hrv
      cases hrv
  · simp

end DAG

namespace DAG

/-- In an acyclic graph every nonempty finite set of nodes has an
edge-minimal member: one receiving no edge from inside the set. -/
theorem exists_edge_minimal (g : Graph) (hacyc : Acyclic g) :
    ∀ (n : Nat) (S : Finset String), S.card ≤ n → S.Nonempty →
      ∃ v ∈ S, ∀ u ∈ S, ¬ edgeRel g u v := by
  intro n
  induction n with
  | zero =>
      intro S hcard hne
      have := Finset.card_pos.mpr hne
      omega
  | succ n ih =>
      intro S hcard hne
      classical
      obtain ⟨v, hv⟩ := hne
      by_cases hmin : ∀ u ∈ S, ¬ edgeRel g u v
      · exact ⟨v, hv, hmin⟩
      · push_neg at hmin
        obtain ⟨u, hu, hedge⟩ := hmin
        have huT : u ∈ S.filter (fun w => Relation.TransGen (edgeRel g) w v) :=
          Finset.mem_filter.mpr ⟨hu, Relation.TransGen.single hedge⟩
        have hvT : v ∉ S.filter (fun w => Relation.TransGen (edgeRel g) w v) := by
          intro hvm
          exact hacyc v ((Finset.mem_filter.mp hvm).2)
        have hTsub : S.filter (fun w => Relation.TransGen (edgeRel g) w v) ⊆ S :=
          Finset.filter_subset _ _
        have hTcard : (S.filter (fun w => Relation.TransGen (edgeRel g) w v)).card
            < S.card :=
          Finset.card_lt_card ⟨hTsub, fun hsup => hvT (hsup hv)⟩
        obtain ⟨w, hwT, hwmin⟩ :=
          ih (S.filter (fun w => Relation.TransGen (edgeRel g) w v))
            (by omega) ⟨u, huT⟩
        refine ⟨w, hTsub hwT, ?_⟩
        intro x hxS hxw
        have hwv : Relation.TransGen (edgeRel g) w v :=
          (Finset.mem_filter.mp hwT).2
        have hxv : Relation.TransGen (edgeRel g) x v :=
          Relation.TransGen.head hxw hwv
        exact hwmin x (Finset.mem_filter.mpr ⟨hxS, hxv⟩) hxw

/-- Ranks decrease backwards along any edge path ending at a ranked node. -/
theorem ranks_chain (g : Graph) (ranks : List (String × Nat))
    (hedge : ∀ e ∈ g.edges, ∀ rv, (e.dst, rv) ∈ ranks →
      ∃ ru, (e.src, ru) ∈ ranks ∧ ru < rv) :
    ∀ u v, Relation.TransGen (edgeRel g) u v →
      ∀ rv, (v, rv) ∈ ranks → ∃ ru, (u, ru) ∈ ranks ∧ ru < rv := by
  intro u v htg
  induction htg with
  | single h =>
      intro rv hrv
      obtain ⟨e, he, hsrc, hdst⟩ := h
      obtain ⟨ru, hru, hlt⟩ := hedge e he rv (by rw [hdst]; exact hrv)
      refine ⟨ru, ?_, hlt⟩
      rw [← hsrc]
      exact hru
  | tail hprev hlast ih =>
      intro rv hrv
      obtain ⟨e, he, hsrc, hdst⟩ := hlast
      obtain ⟨rb, hrb, hlt1⟩ := hedge e he rv (by rw [hdst]; exact hrv)
      obtain ⟨ru, hru, hlt2⟩ := ih rb (by rw [← hsrc]; exact hrb)
      exact ⟨ru, hru, lt_trans hlt2 hlt1⟩

/-- The endpoint of a nonempty edge path is a listed edge target, hence a
node of a well-formed graph. -/
theorem transGen_end_mem (g : Graph) (hwf : WellFormed g) {x y : String}
    (htg : Relation.TransGen (edgeRel g) x y) : y ∈ g.nodes := by
  cases htg with
  | single h =>
      obtain ⟨e, he, _, hdst⟩ := h
      exact hdst ▸ (hwf e he).2
  | tail _ hlast =>
      obtain ⟨e, he, _, hdst⟩ := hlast
      exact hdst ▸ (hwf e he).2

end DAG

namespace DAG

/-- C1: For every well-formed input graph with duplicate-free nodes, Kahn
layering (`assign_ranks`) is correct: on an acyclic graph the rank list
contains every node and assigns `rank(src) < rank(dst)` across every edge;
on a cyclic graph the rank list stays duplicate-free but ranks strictly
fewer entries than there are nodes (cycle members never enter the queue). -/
theorem assign_ranks_spec (g : Graph) (hnd : g.nodes.Nodup)
    (hwf : WellFormed g) :
    (Acyclic g →
      (∀ v ∈ g.nodes, ∃ r, (v, r) ∈ assign_ranks g)
      ∧ (∀ e ∈ g.edges, ∃ ru rv, (e.src, ru) ∈ assign_ranks g
          ∧ (e.dst, rv) ∈ assign_ranks g ∧ ru < rv))
    ∧ (¬ Acyclic g →
      ((assign_ranks g).map Prod.fst).Nodup
      ∧ (assign_ranks g).length < g.nodes.length) := by
  have hpost := assign_ranks_post g hnd hwf
  constructor
  · intro hacyc
    have hall : ∀ v ∈ g.nodes, v ∈ (assign_ranks g).map Prod.fst := by
      by_contra hno
      push_neg at hno
      obtain ⟨v0, hv0n, hv0k⟩ := hno
      classical
      have hv0S : v0 ∈ g.nodes.toFinset.filter
          (fun v => v ∉ (assign_ranks g).map Prod.fst) :=
        Finset.mem_filter.mpr ⟨List.mem_toFinset.mpr hv0n, hv0k⟩
      obtain ⟨v, hvS, hvmin⟩ :=
        exists_edge_minimal g hacyc
          (g.nodes.toFinset.filter (fun v => v ∉ (assign_ranks g).map Prod.fst)).card
          (g.nodes.toFinset.filter (fun v => v ∉ (assign_ranks g).map Prod.fst))
          le_rfl ⟨v0, hv0S⟩
      have hvfacts := Finset.mem_filter.mp hvS
      obtain ⟨e, he, hdst, hsrcn, hsrck⟩ :=
        hpost.unranked_pred v (List.mem_toFinset.mp hvfacts.1) hvfacts.2
      have hsrcS : e.src ∈ g.nodes.toFinset.filter
          (fun v => v ∉ (assign_ranks g).map Prod.fst) :=
        Finset.mem_filter.mpr ⟨List.mem_toFinset.mpr hsrcn, hsrck⟩
      exact hvmin e.src hsrcS ⟨e, he, rfl, hdst⟩
    have hcomplete : ∀ v ∈ g.nodes, ∃ r, (v, r) ∈ assign_ranks g := by
      intro v hv
      exact (mem_keys_iff _ v).mp (hall v hv)
    refine ⟨hcomplete, ?_⟩
    intro e he
    obtain ⟨rv, hrv⟩ := hcomplete e.dst (hwf e he).2
    obtain ⟨ru, hru, hlt⟩ := hpost.ranks_edge e he rv hrv
    exact ⟨ru, rv, hru, hrv, hlt⟩
  · intro hncyc
    refine ⟨hpost.keys_nodup, ?_⟩
    have hnotall : ¬ ∀ v ∈ g.nodes, v ∈ (assign_ranks g).map Prod.fst := by
      intro hall
      apply hncyc
      intro x htg
      have hx : x ∈ g.nodes := transGen_end_mem g hwf htg
      obtain ⟨rx, hrx⟩ := (mem_keys_iff _ x).mp (hall x hx)
      obtain ⟨ru, hru, hlt⟩ :=
        ranks_chain g (assign_ranks g) hpost.ranks_edge x x htg rx hrx
      have := rank_unique (assign_ranks g) hpost.keys_nodup x ru rx hru hrx
      omega
    push_neg at hnotall
    obtain ⟨v0, hv0n, hv0k⟩ := hnotall
    classical
    have hsub : ((assign_ranks g).map Prod.fst).toFinset ⊆ g.nodes.toFinset := by
      intro v hv
      exact List.mem_toFinset.mpr (hpost.keys_sub v (List.mem_toFinset.mp hv))
    have hssub : ((assign_ranks g).map Prod.fst).toFinset ⊂ g.nodes.toFinset := by
      refine (Finset.ssubset_iff_of_subset hsub).mpr ?_
      exact ⟨v0, List.mem_toFinset.mpr hv0n, fun h => hv0k (List.mem_toFinset.mp h)⟩
    have hcard := Finset.card_lt_card hssub
    rw [List.toFinset_card_of_nodup hpost.keys_nodup,
      List.toFinset_card_of_nodup hnd, List.length_map] at hcard
    exact hcard

end DAG

/-- Concrete instantiation of `assign_ranks_spec` on the three-node line
graph a → b → c: its hypotheses hold and the theorem applies. -/
theorem assign_ranks_spec_witness :
    DAG.line_graph.nodes.Nodup ∧ DAG.WellFormed DAG.line_graph
    ∧ ((DAG.Acyclic DAG.line_graph →
        (∀ v ∈ DAG.line_graph.nodes, ∃ r, (v, r) ∈ DAG.assign_ranks DAG.line_graph)
        ∧ (∀ e ∈ DAG.line_graph.edges, ∃ ru rv,
            (e.src, ru) ∈ DAG.assign_ranks DAG.line_graph
            ∧ (e.dst, rv) ∈ DAG.assign_ranks DAG.line_graph ∧ ru < rv))
      ∧ (¬ DAG.Acyclic DAG.line_graph →
        ((DAG.assign_ranks DAG.line_graph).map Prod.fst).Nodup
        ∧ (DAG.assign_ranks DAG.line_graph).length < DAG.line_graph.nodes.length)) :=
  ⟨by decide, by unfold DAG.WellFormed; decide,
    DAG.assign_ranks_spec DAG.line_graph (by decide) (by unfold DAG.WellFormed; decide)⟩
